import Mathlib

/-!
# Ledger reconciliation: a shallow embedding of `reconcile.go`

The definitions below follow `src/go-reconcile-api/reconcile.go` (the engine with the
`days` parameter; `src/reconcile.go` is the same engine with the window fixed at 60): the
matching engine `reconcile`, the report `generateReport` and the record loop of `readCSV` /
`parseCSVFile`. The header-removal loop of `src/clean.go` and `src/clean-api/clean.go` comes
last.

Conventions of the embedding:

* a `float64` is the rational number it denotes; the subtraction of phase 2 and the arithmetic
  of `Duration.Hours` and of `dateDifferenceInDays` are the exact operation followed by
  `roundFloat64`, rounding to the nearest double (ties to even); the exponent range is taken as
  unbounded (no overflow, no subnormals), NaN and the infinities are left out, and the sum and
  difference that `generateReport` prints are kept exact;
* a `time.Time` is an instant counted in nanoseconds (`Int`); `Time.Sub` saturates at the ends
  of the 64-bit range of `time.Duration`, as in Go;
* Go slices are lists; a `for` loop over a mutated slice is a recursive function carrying the
  loop index, with a step budget equal to the number of iterations the loop can make.
-/

namespace Reconcile

/-! ## Data model -/

/-- Transaction struct: identifier, amount and value date. -/
structure Transaction where
  No : String
  Value : ℚ
  Date : Int
  deriving DecidableEq

/-- CreditTransaction struct: a Transaction with a side tag (the Go field `Type`). -/
structure CreditTransaction extends Transaction where
  Type_ : String
  deriving DecidableEq

/-- DebitTransaction struct: a Transaction with a side tag (the Go field `Type`). -/
structure DebitTransaction extends Transaction where
  Type_ : String
  deriving DecidableEq

/-! ## Floating-point arithmetic -/

/-- Rounding of a non-negative rational to the nearest integer, a tie going to the even one. -/
def roundHalfEven (x : ℚ) : Int :=
  let f : Int := ⌊x⌋
  let r : ℚ := x - f
  if r < 1 / 2 then f
  else if 1 / 2 < r then f + 1
  else if f % 2 = 0 then f else f + 1

/-- Number of binary digits of `n`, computed with at most `fuel` halvings (`fuel = n` is always
enough). -/
def bitLength : Nat → Nat → Nat
  | 0, _ => 0
  | fuel + 1, n => if n = 0 then 0 else bitLength fuel (n / 2) + 1

/-- The binary exponent of a positive rational `q`: the integer `e` with `2 ^ e ≤ q < 2 ^ (e + 1)`. -/
def binaryExponent (q : ℚ) : Int :=
  let e0 : Int := (bitLength q.num.natAbs q.num.natAbs : Int) - (bitLength q.den q.den : Int)
  if (2 : ℚ) ^ e0 ≤ q then e0 else e0 - 1

/-- The `float64` nearest to `q` (53 significant bits, ties to even): the result of a `float64`
operation whose exact result is `q`, for results in the normal range. -/
def roundFloat64 (q : ℚ) : ℚ :=
  if q = 0 then 0
  else
    let ulp : ℚ := (2 : ℚ) ^ (binaryExponent |q| - 52)
    (if q < 0 then -1 else 1) * (roundHalfEven (|q| / ulp) * ulp)

/-- Go: the conversion `int(f)` of a `float64`, which discards the fraction (truncation toward
zero). -/
def truncate (f : ℚ) : Int :=
  if 0 ≤ f then ⌊f⌋ else ⌈f⌉

/-! ## Dates -/

/-- Number of nanoseconds in one hour (`time.Hour`). -/
def nanosPerHour : Int := 3600 * 1000000000

/-- Number of nanoseconds in 24 hours. -/
def nanosPerDay : Int := 24 * nanosPerHour

/-- The largest `time.Duration`, `1<<63 - 1` nanoseconds. -/
def maxDuration : Int := 2 ^ 63 - 1

/-- The smallest `time.Duration`, `-1 << 63` nanoseconds. -/
def minDuration : Int := -(2 ^ 63)

/-- Go: `t.Sub(u)`, the duration `t - u`; "if the result exceeds the maximum (or minimum) value
that can be stored in a Duration, the maximum (or minimum) duration will be returned". -/
def timeSub (t u : Int) : Int :=
  if maxDuration < t - u then maxDuration
  else if t - u < minDuration then minDuration
  else t - u

/-- Go: `d.Hours()`, that is `hour := d / Hour; nsec := d % Hour;
return float64(hour) + float64(nsec)/(60*60*1e9)`. Integer division and remainder truncate
toward zero; both conversions to `float64` are exact for every `Duration`. -/
def durationHours (d : Int) : ℚ :=
  roundFloat64 ((Int.tdiv d nanosPerHour : ℚ) +
    roundFloat64 ((Int.tmod d nanosPerHour : ℚ) / 3600000000000))

/-- Go: `diff := date1.Sub(date2); return int(diff.Hours() / 24)`. -/
def dateDifferenceInDays (date1 date2 : Int) : Int :=
  truncate (roundFloat64 (durationHours (timeSub date1 date2) / 24))

/-- The condition of the `if` in phase 1:
`credit.Value == debit.Value && dateDifferenceInDays(credit.Date, debit.Date) <= days`. -/
def exactMatch (days : Int) (credit : CreditTransaction) (debit : DebitTransaction) : Prop :=
  credit.Value = debit.Value ∧ dateDifferenceInDays credit.Date debit.Date ≤ days

instance (days : Int) (credit : CreditTransaction) (debit : DebitTransaction) :
    Decidable (exactMatch days credit debit) := by
  unfold exactMatch; infer_instance

/-- The condition of the `if` in phase 2:
`credits[i].Value <= remainingDebitValue && dateDifferenceInDays(credits[i].Date, debit.Date) <= days`. -/
def canAccumulate (days : Int) (debit : DebitTransaction) (credit : CreditTransaction)
    (remainingDebitValue : ℚ) : Prop :=
  credit.Value ≤ remainingDebitValue ∧ dateDifferenceInDays credit.Date debit.Date ≤ days

instance (days : Int) (debit : DebitTransaction) (credit : CreditTransaction) (r : ℚ) :
    Decidable (canAccumulate days debit credit r) := by
  unfold canAccumulate; infer_instance

/-! ## Sorting the credits -/

/-- The comparison function handed to `sort.Slice`: earlier date first, and on equal dates the
larger amount first. -/
def creditLess (a b : CreditTransaction) : Prop :=
  if a.Date = b.Date then a.Value > b.Value else a.Date < b.Date

instance (a b : CreditTransaction) : Decidable (creditLess a b) := by
  unfold creditLess; infer_instance

/-- The order in which `b` may not come before `a`: `less(b, a)` is false. -/
def creditLE (a b : CreditTransaction) : Prop := ¬ creditLess b a

instance (a b : CreditTransaction) : Decidable (creditLE a b) := by
  unfold creditLE; infer_instance

/-- Go: `sort.Slice(credits, less)`. `sort.Slice` leaves the order of elements that compare equal
unspecified; the embedding sorts by insertion, which keeps them in input order. -/
def sortCredits (credits : List CreditTransaction) : List CreditTransaction :=
  credits.insertionSort creditLE

/-! ## Phase 1: exact one-to-one matching -/

/-- The inner loop of phase 1, `for j := 0; j < len(debits); { ... }`, started at index `j`:
the index and value of the first debit at or after `j` that matches `credit`, if there is one.
The first argument bounds the number of iterations. -/
def scanDebits (days : Int) (credit : CreditTransaction) (debits : List DebitTransaction) :
    Nat → Nat → Option (Nat × DebitTransaction)
  | 0, _ => none
  | fuel + 1, j =>
    match debits[j]? with
    | none => none
    | some debit =>
      if exactMatch days credit debit then some (j, debit)
      else scanDebits days credit debits fuel (j + 1)

/-- Go: `append(s[:i], s[i+1:]...)`, removal that keeps the order of the other elements. -/
def removeAt {α : Type} (s : List α) (i : Nat) : List α :=
  s.take i ++ s.drop (i + 1)

/-- The outer loop of phase 1, `for i := 0; i < len(credits); { ... }`, in the state
`(i, matchedTransactions, credits, debits)`. The first argument bounds the number of
iterations. -/
def phase1Loop (days : Int) :
    Nat → Nat → List (List Transaction) → List CreditTransaction → List DebitTransaction →
      List (List Transaction) × List CreditTransaction × List DebitTransaction
  | 0, _, matched, credits, debits => (matched, credits, debits)
  | fuel + 1, i, matched, credits, debits =>
    match credits[i]? with
    | none => (matched, credits, debits)
    | some credit =>
      match scanDebits days credit debits debits.length 0 with
      | some (j, debit) =>
        phase1Loop days fuel i (matched ++ [[credit.toTransaction, debit.toTransaction]])
          (removeAt credits i) (removeAt debits j)
      | none => phase1Loop days fuel (i + 1) matched credits debits

/-- Phase 1 of `reconcile`: sort the credits, then run the exact-match loop from index 0.
Every iteration either removes a credit or advances the index, so the loop makes exactly
`len(credits)` iterations. -/
def phase1 (days : Int) (credits : List CreditTransaction) (debits : List DebitTransaction) :
    List (List Transaction) × List CreditTransaction × List DebitTransaction :=
  phase1Loop days (sortCredits credits).length 0 [] (sortCredits credits) debits

/-! ## Phase 2: greedy many-to-one aggregation -/

/-- Go: `credits[i] = credits[len(credits)-1]; credits = credits[:len(credits)-1]`:
the last element is written over index `i` and the slice is shortened by one. -/
def removeSwapLast {α : Type} (s : List α) (i : Nat) : List α :=
  match s.getLast? with
  | none => s
  | some last => (s.set i last).dropLast

/-- The inner loop of phase 2, `for i := 0; i < len(credits); { ... }`, in the state
`(i, credits, remainingDebitValue, matchedCredits)`. The first argument bounds the number of
iterations. `remainingDebitValue -= credits[i].Value` is a `float64` subtraction. -/
def aggregateLoop (days : Int) (debit : DebitTransaction) :
    Nat → Nat → List CreditTransaction → ℚ → List CreditTransaction →
      List CreditTransaction × ℚ × List CreditTransaction
  | 0, _, credits, remaining, matchedCredits => (credits, remaining, matchedCredits)
  | fuel + 1, i, credits, remaining, matchedCredits =>
    match credits[i]? with
    | none => (credits, remaining, matchedCredits)
    | some c =>
      if canAccumulate days debit c remaining then
        aggregateLoop days debit fuel i (removeSwapLast credits i)
          (roundFloat64 (remaining - c.Value)) (matchedCredits ++ [c])
      else aggregateLoop days debit fuel (i + 1) credits remaining matchedCredits

/-- The body of `for _, debit := range debits` up to the tolerance test: the credit pool after
the scan, the remaining debit value and the accumulated credits. The scan makes exactly
`len(credits)` iterations. -/
def aggregate (days : Int) (debit : DebitTransaction) (credits : List CreditTransaction) :
    List CreditTransaction × ℚ × List CreditTransaction :=
  aggregateLoop days debit credits.length 0 credits debit.Value []

/-- Go: `convertToTransactions` on a `[]CreditTransaction`. -/
def convertToTransactions (credits : List CreditTransaction) : List Transaction :=
  credits.map (fun c => c.toTransaction)

/-- The tolerance test `remainingDebitValue >= -threshold && remainingDebitValue <= threshold`. -/
def withinTolerance (threshold remaining : ℚ) : Prop :=
  remaining ≥ -threshold ∧ remaining ≤ threshold

instance (threshold remaining : ℚ) : Decidable (withinTolerance threshold remaining) := by
  unfold withinTolerance; infer_instance

/-- The loop `for _, debit := range debits` of phase 2, in the state
`(matchedTransactions, credits, unmatchedDebits)`. -/
def phase2Loop (days : Int) (threshold : ℚ) :
    List DebitTransaction → List (List Transaction) → List CreditTransaction →
      List DebitTransaction →
      List (List Transaction) × List CreditTransaction × List DebitTransaction
  | [], matched, credits, unmatchedDebits => (matched, credits, unmatchedDebits)
  | debit :: rest, matched, credits, unmatchedDebits =>
    let r := aggregate days debit credits
    if withinTolerance threshold r.2.1 then
      phase2Loop days threshold rest
        (matched ++ [debit.toTransaction :: convertToTransactions r.2.2]) r.1 unmatchedDebits
    else
      phase2Loop days threshold rest matched r.1 (unmatchedDebits ++ [debit])

/-- Go: `reconcile(credits, debits, days, threshold)`, returning
`(matchedTransactions, unmatchedCredits, unmatchedDebits)`. -/
def reconcile (credits : List CreditTransaction) (debits : List DebitTransaction) (days : Int)
    (threshold : ℚ) :
    List (List Transaction) × List CreditTransaction × List DebitTransaction :=
  let p := phase1 days credits debits
  phase2Loop days threshold p.2.2 p.1 p.2.1 []

/-! ## Reference formulations taken from the specification -/

/-- Specification, phase 1 step 2: "select the first debit with equal amount and satisfying the
proximity predicate" and remove it from the working list. -/
def removeFirstMatch (days : Int) (credit : CreditTransaction) :
    List DebitTransaction → Option (DebitTransaction × List DebitTransaction)
  | [] => none
  | d :: ds =>
    if exactMatch days credit d then some (d, ds)
    else
      match removeFirstMatch days credit ds with
      | none => none
      | some (x, r) => some (x, d :: r)

/-- Specification, phase 1 step 2, for one credit: on a hit emit the pair and remove both
postings; on no hit the credit stays in the pool. The state is
`(matchGroups, credits kept for phase 2, working debit list)`. -/
def phase1Step (days : Int)
    (st : List (List Transaction) × List CreditTransaction × List DebitTransaction)
    (credit : CreditTransaction) :
    List (List Transaction) × List CreditTransaction × List DebitTransaction :=
  match removeFirstMatch days credit st.2.2 with
  | some (d, ds) => (st.1 ++ [[credit.toTransaction, d.toTransaction]], st.2.1, ds)
  | none => (st.1, st.2.1 ++ [credit], st.2.2)

/-- Specification, phase 1: the left fold of `phase1Step` over the ordered credit list. -/
def phase1Fold (days : Int) (sorted : List CreditTransaction) (debits : List DebitTransaction) :
    List (List Transaction) × List CreditTransaction × List DebitTransaction :=
  sorted.foldl (phase1Step days) ([], [], debits)

/-! ## Bookkeeping for phase 2: what each debit accumulated -/

/-- What phase 2 does for each debit in turn: the debit, the remaining debit value after its
scan and the credits it accumulated, the pool being handed from one debit to the next. -/
def accumulated (days : Int) :
    List DebitTransaction → List CreditTransaction →
      List (DebitTransaction × ℚ × List CreditTransaction)
  | [], _ => []
  | debit :: rest, credits =>
    let r := aggregate days debit credits
    (debit, r.2.1, r.2.2) :: accumulated days rest r.1

/-- The credit pool left once phase 2 has processed the given debits. -/
def poolAfter (days : Int) : List DebitTransaction → List CreditTransaction → List CreditTransaction
  | [], credits => credits
  | debit :: rest, credits => poolAfter days rest (aggregate days debit credits).1

/-- The credits accumulated by debits that then failed the tolerance test. -/
def discardedCredits (days : Int) (threshold : ℚ) (debits : List DebitTransaction)
    (credits : List CreditTransaction) : List CreditTransaction :=
  (((accumulated days debits credits).filter
    (fun e => ¬ withinTolerance threshold e.2.1)).map (fun e => e.2.2)).flatten

/-- The groups phase 2 emits: one per debit whose remaining value passes the tolerance test. -/
def aggregateGroups (days : Int) (threshold : ℚ) (debits : List DebitTransaction)
    (credits : List CreditTransaction) : List (List Transaction) :=
  ((accumulated days debits credits).filter (fun e => withinTolerance threshold e.2.1)).map
    (fun e => e.1.toTransaction :: convertToTransactions e.2.2)

/-- Total number of postings in a list of match groups. -/
def groupSize (groups : List (List Transaction)) : Nat :=
  (groups.map List.length).sum

/-- Sum of the amounts of a list of transactions. -/
def sumValues (ts : List Transaction) : ℚ :=
  (ts.map (fun t => t.Value)).sum

/-- The debits phase 2 leaves unmatched: those whose remaining value fails the tolerance test. -/
def failedDebits (days : Int) (threshold : ℚ) (debits : List DebitTransaction)
    (credits : List CreditTransaction) : List DebitTransaction :=
  ((accumulated days debits credits).filter
    (fun e => ¬ withinTolerance threshold e.2.1)).map (fun e => e.1)

/-- All the credits accumulated by the debits of phase 2, accepted or not. -/
def accumulatedCredits (days : Int) (debits : List DebitTransaction)
    (credits : List CreditTransaction) : List CreditTransaction :=
  ((accumulated days debits credits).map (fun e => e.2.2)).flatten

/-! ## Inputs used in the scenarios -/

/-- Number of days from 1970-01-01 to the given calendar date (proleptic Gregorian). -/
def daysFromCivil (y m d : Int) : Int :=
  let y1 := if m ≤ 2 then y - 1 else y
  let era := y1 / 400
  let yoe := y1 - era * 400
  let mp := (m + 9) % 12
  let doy := (153 * mp + 2) / 5 + d - 1
  let doe := yoe * 365 + yoe / 4 - yoe / 100 + doy
  era * 146097 + doe - 719468

/-- The instant `time.Parse("1/2/2006", ...)` returns for a calendar date: midnight UTC. -/
def dateOf (y m d : Int) : Int :=
  daysFromCivil y m d * nanosPerDay

/-- Go: `CreditTransaction{Transaction: credit, Type: "credit"}`. -/
def toCredit (no : String) (value : ℚ) (date : Int) : CreditTransaction :=
  { No := no, Value := value, Date := date, Type_ := "credit" }

/-- Go: `DebitTransaction{Transaction: debit, Type: "debit"}`. -/
def toDebit (no : String) (value : ℚ) (date : Int) : DebitTransaction :=
  { No := no, Value := value, Date := date, Type_ := "debit" }

/-! ## Reference engine with order-preserving removal in phase 2 -/

/-- The inner loop of phase 2 as the specification asks for it: the same loop as
`aggregateLoop`, except that an accepted credit is removed by compaction
(`append(credits[:i], credits[i+1:]...)`), which keeps the order of the pool. -/
def aggregateLoopCompact (days : Int) (debit : DebitTransaction) :
    Nat → Nat → List CreditTransaction → ℚ → List CreditTransaction →
      List CreditTransaction × ℚ × List CreditTransaction
  | 0, _, credits, remaining, matchedCredits => (credits, remaining, matchedCredits)
  | fuel + 1, i, credits, remaining, matchedCredits =>
    match credits[i]? with
    | none => (credits, remaining, matchedCredits)
    | some c =>
      if canAccumulate days debit c remaining then
        aggregateLoopCompact days debit fuel i (removeAt credits i)
          (roundFloat64 (remaining - c.Value)) (matchedCredits ++ [c])
      else aggregateLoopCompact days debit fuel (i + 1) credits remaining matchedCredits

/-- The scan of one debit in the reference engine. -/
def aggregateCompact (days : Int) (debit : DebitTransaction)
    (credits : List CreditTransaction) :
    List CreditTransaction × ℚ × List CreditTransaction :=
  aggregateLoopCompact days debit credits.length 0 credits debit.Value []

/-- The loop over the debits in the reference engine: `phase2Loop` with `aggregateCompact` in
the place of `aggregate`. -/
def phase2LoopCompact (days : Int) (threshold : ℚ) :
    List DebitTransaction → List (List Transaction) → List CreditTransaction →
      List DebitTransaction →
      List (List Transaction) × List CreditTransaction × List DebitTransaction
  | [], matched, credits, unmatchedDebits => (matched, credits, unmatchedDebits)
  | debit :: rest, matched, credits, unmatchedDebits =>
    let r := aggregateCompact days debit credits
    if withinTolerance threshold r.2.1 then
      phase2LoopCompact days threshold rest
        (matched ++ [debit.toTransaction :: convertToTransactions r.2.2]) r.1 unmatchedDebits
    else
      phase2LoopCompact days threshold rest matched r.1 (unmatchedDebits ++ [debit])

/-- The reference engine: `reconcile` with order-preserving removal in phase 2. -/
def reconcileCompact (credits : List CreditTransaction) (debits : List DebitTransaction)
    (days : Int) (threshold : ℚ) :
    List (List Transaction) × List CreditTransaction × List DebitTransaction :=
  let p := phase1 days credits debits
  phase2LoopCompact days threshold p.2.2 p.1 p.2.1 []

/-- The order the specification gives for the credits: ascending date, and on equal dates
descending amount. -/
def creditOrder (a b : CreditTransaction) : Prop :=
  a.Date < b.Date ∨ (a.Date = b.Date ∧ b.Value ≤ a.Value)

/-! ## Report -/

/-- The verb `%.2f` of `fmt.Sprintf` on an exact amount: sign, integer part, point and two
decimals, the amount being rounded to the nearest hundredth (a tie goes to the even one). -/
def formatFixed2 (v : ℚ) : String :=
  let scaled : ℚ := |v| * 100
  let whole : Int := scaled.floor
  let frac : ℚ := scaled - whole
  let n : Nat :=
    (if frac > 1 / 2 ∨ (frac = 1 / 2 ∧ whole % 2 = 1) then whole + 1 else whole).toNat
  (if v < 0 then "-" else "") ++ toString (n / 100) ++ "." ++
    (if n % 100 < 10 then "0" else "") ++ toString (n % 100)

/-- The body of `for _, transactions := range matchedTransactions` in `generateReport`: the line
written for one group. `debit := transactions[0]` fails on an empty group (`none`); a group of
length 2 takes the first branch with `credit := transactions[1]`, any other group the second
with `credits := transactions[1:]`. -/
def renderGroup : List Transaction → Option String
  | [] => none
  | [debit, credit] =>
    some ("Credit: " ++ credit.No ++ " (" ++ formatFixed2 credit.Value ++ ") - Debit: " ++
      debit.No ++ " (" ++ formatFixed2 debit.Value ++ ")\n")
  | debit :: credits =>
    some ("Credits: " ++ ", ".intercalate (credits.map (fun c => c.No)) ++ " - Debit: " ++
      debit.No ++ " (Difference: " ++
      formatFixed2 (debit.Value - credits.foldl (fun s c => s + c.Value) 0) ++ ")\n")

/-- The lines of all the groups, in order. -/
def renderGroups : List (List Transaction) → Option String
  | [] => some ""
  | g :: gs =>
    match renderGroup g, renderGroups gs with
    | some line, some more => some (line ++ more)
    | _, _ => none

/-- The line `fmt.Sprintf("%s, %.2f\n", t.No, t.Value)` of a leftover posting. -/
def renderLeftover (t : Transaction) : String :=
  t.No ++ ", " ++ formatFixed2 t.Value ++ "\n"

/-- Go: `generateReport(matchedTransactions, unmatchedCredits, unmatchedDebits)`; `none` when
indexing an empty group fails. -/
def generateReport (matchedTransactions : List (List Transaction))
    (unmatchedCredits : List CreditTransaction) (unmatchedDebits : List DebitTransaction) :
    Option String :=
  match renderGroups matchedTransactions with
  | none => none
  | some lines =>
    some ("Matched Transactions:\n" ++ lines ++
      "\nUnmatched Credit Transactions:\n" ++
      (if unmatchedCredits.length = 0 then "None\n"
        else String.join (unmatchedCredits.map (fun c => renderLeftover c.toTransaction))) ++
      "\nUnmatched Debit Transactions:\n" ++
      (if unmatchedDebits.length = 0 then "None\n"
        else String.join (unmatchedDebits.map (fun d => renderLeftover d.toTransaction))))

/-! ## Loading the records (`readCSV`, `parseCSVFile`) -/

/-- Go: the loop of `parseCSVFile` (the same loop is in `readCSV`) over the records the CSV
reader yields before its first error, with `transactions` as accumulated so far.
`strconv.ParseFloat(·, 64)` and `time.Parse("1/2/2006", ·)` are the parameters `parseFloat`
and `parseDate`. Indexing a record past its end stops the program with a run-time panic: the
result is then `none`. -/
def parseRecords (parseFloat : String → Option ℚ) (parseDate : String → Option Int) :
    List (List String) → List Transaction → Option (List Transaction)
  | [], transactions => some transactions
  | record :: rest, transactions =>
    match record[2]? with
    | none => none
    | some amountField =>
      match parseFloat amountField with
      | none => parseRecords parseFloat parseDate rest transactions
      | some value =>
        match record[1]? with
        | none => none
        | some dateField =>
          match parseDate dateField with
          | none => parseRecords parseFloat parseDate rest transactions
          | some date =>
            match record[0]? with
            | none => none
            | some no =>
              parseRecords parseFloat parseDate rest
                (transactions ++ [{ No := no, Value := value, Date := date }])

/-- Go: `parseCSVFile(file, transactionType)` on the records read from `file`. -/
def parseCSVFile (parseFloat : String → Option ℚ) (parseDate : String → Option Int)
    (records : List (List String)) : Option (List Transaction) :=
  parseRecords parseFloat parseDate records []

/-- Specification of the loader for one record: the posting of a record whose amount field
parses as a number and whose date field parses against the pattern, nothing for any other
record. -/
def postingOf (parseFloat : String → Option ℚ) (parseDate : String → Option Int)
    (record : List String) : Option Transaction :=
  match record[2]?, record[1]?, record[0]? with
  | some amountField, some dateField, some no =>
    match parseFloat amountField, parseDate dateField with
    | some value, some date => some { No := no, Value := value, Date := date }
    | _, _ => none
  | _, _, _ => none

/-- Specification of the loader: the postings of the records that parse, in input order. -/
def postingsOf (parseFloat : String → Option ℚ) (parseDate : String → Option Int)
    (records : List (List String)) : List Transaction :=
  records.filterMap (postingOf parseFloat parseDate)

/-! ## Removing the header rows (`clean.go`) -/

/-- Modelled from the spec: `RemoveRow(sheet, row)` of the spreadsheet library (excelize, not
part of the repository) deletes the `row`-th (1-based) row and shifts the later rows up. A row
number below 1 is an error (`none`); a row number past the last row leaves the sheet as it
is. -/
def RemoveRow {α : Type} (sheet : List α) (row : Nat) : Option (List α) :=
  if row < 1 then none else some (sheet.eraseIdx (row - 1))

/-- Go: `for i := 1; i <= 25; i++ { err := f.RemoveRow(sheet, i); if err != nil { return } }`
from the index `i`. The first argument bounds the number of iterations; an error of `RemoveRow`
ends the function (`none`). -/
def removeRowsLoop {α : Type} : Nat → Nat → List α → Option (List α)
  | 0, _, sheet => some sheet
  | fuel + 1, i, sheet =>
    if i ≤ 25 then
      match RemoveRow sheet i with
      | none => none
      | some sheet1 => removeRowsLoop fuel (i + 1) sheet1
    else some sheet

/-- The block "Remove the first 25 rows" of `main` and `CleanSpreadsheet`: the loop from
`i = 1`, which makes 25 iterations. -/
def removeFirstRows {α : Type} (sheet : List α) : Option (List α) :=
  removeRowsLoop 25 1 sheet

/-- Drops the first, third, fifth, ... element, `n` elements at most. -/
def dropAlternate {α : Type} : Nat → List α → List α
  | 0, l => l
  | _ + 1, [] => []
  | _ + 1, [_] => []
  | n + 1, _ :: y :: l => y :: dropAlternate n l

/-! ## Postings of the match groups -/

/-- The first posting of each group: the credit of a phase-1 pair `[credit, debit]`, the debit
of a phase-2 group `[debit, credits...]`. -/
def firstPostings (groups : List (List Transaction)) : List Transaction :=
  groups.filterMap List.head?

/-- The postings after the first of each group: the debit of a phase-1 pair, the credits of a
phase-2 group. -/
def otherPostings (groups : List (List Transaction)) : List Transaction :=
  (groups.map List.tail).flatten

/-! ## The remainder phase 2 computes -/

/-- The value of `remainingDebitValue` after the given credits have been accumulated, in their
order: each `remainingDebitValue -= credit.Value` is a `float64` subtraction. -/
def floatRemainder (value : ℚ) (credits : List Transaction) : ℚ :=
  credits.foldl (fun r c => roundFloat64 (r - c.Value)) value

/-- Each of the credits passed the test `credit.Value <= remainingDebitValue` at its turn. -/
def acceptedFrom (value : ℚ) : List Transaction → Prop
  | [] => True
  | c :: cs => c.Value ≤ value ∧ acceptedFrom (roundFloat64 (value - c.Value)) cs

/-! ## Rounding to `float64` -/

theorem roundHalfEven_ge (k : Int) (x : ℚ) (h : (k : ℚ) ≤ x) : k ≤ roundHalfEven x := by
  have hf : k ≤ ⌊x⌋ := Int.le_floor.mpr h
  unfold roundHalfEven
  simp only []
  split_ifs <;> omega

theorem roundHalfEven_le (k : Int) (x : ℚ) (h : x ≤ (k : ℚ)) : roundHalfEven x ≤ k := by
  rcases eq_or_lt_of_le h with he | hlt
  · subst he
    simp [roundHalfEven]
  · have hf : ⌊x⌋ < k := Int.floor_lt.mpr hlt
    unfold roundHalfEven
    simp only []
    split_ifs <;> omega

theorem bitLength_zero (fuel : Nat) : bitLength fuel 0 = 0 := by
  cases fuel <;> simp [bitLength]

theorem bitLength_spec :
    ∀ (fuel n : Nat), n ≤ fuel →
      n < 2 ^ bitLength fuel n ∧ (0 < n → 2 ^ bitLength fuel n ≤ 2 * n) := by
  intro fuel
  induction fuel with
  | zero =>
    intro n h
    have : n = 0 := by omega
    subst this
    simp [bitLength]
  | succ fuel ih =>
    intro n h
    unfold bitLength
    by_cases hn : n = 0
    · simp [hn]
    · simp only [hn, if_false]
      obtain ⟨h1, h2⟩ := ih (n / 2) (by omega)
      rw [pow_succ]
      constructor
      · omega
      · intro _
        by_cases hh : n / 2 = 0
        · rw [hh, bitLength_zero]
          simp
          omega
        · have := h2 (by omega)
          omega

theorem exponent_bounds (A B : ℚ) (la lb : ℕ) (hA : 0 < A) (hB : 0 < B)
    (a1 : A < (2 : ℚ) ^ la) (a2 : (2 : ℚ) ^ la ≤ 2 * A)
    (b1 : B < (2 : ℚ) ^ lb) (b2 : (2 : ℚ) ^ lb ≤ 2 * B) :
    (2 : ℚ) ^ ((la : ℤ) - (lb : ℤ) - 1) ≤ A / B ∧ A / B < (2 : ℚ) ^ ((la : ℤ) - (lb : ℤ) + 1) := by
  have h2 : (2 : ℚ) ≠ 0 := by norm_num
  have hpa : (0 : ℚ) < (2 : ℚ) ^ la := by positivity
  have hpb : (0 : ℚ) < (2 : ℚ) ^ lb := by positivity
  have he0 : (2 : ℚ) ^ ((la : ℤ) - (lb : ℤ)) = (2 : ℚ) ^ la / (2 : ℚ) ^ lb := by
    rw [zpow_sub₀ h2, zpow_natCast, zpow_natCast]
  constructor
  · rw [zpow_sub_one₀ h2, he0, div_mul_eq_mul_div, div_le_div_iff₀ hpb hB]
    nlinarith
  · rw [zpow_add_one₀ h2, he0, div_mul_eq_mul_div, div_lt_div_iff₀ hB hpb]
    nlinarith

theorem binaryExponent_spec (q : ℚ) (hq : 0 < q) :
    (2 : ℚ) ^ binaryExponent q ≤ q ∧ q < (2 : ℚ) ^ (binaryExponent q + 1) := by
  have hnum : 0 < q.num := Rat.num_pos.mpr hq
  have hden : 0 < q.den := q.den_pos
  have ha : 0 < q.num.natAbs := Int.natAbs_pos.mpr (ne_of_gt hnum)
  obtain ⟨a1, a2⟩ := bitLength_spec q.num.natAbs q.num.natAbs (le_refl _)
  obtain ⟨b1, b2⟩ := bitLength_spec q.den q.den (le_refl _)
  have a2 := a2 ha
  have b2 := b2 hden
  have hcast : (q.num : ℚ) = (q.num.natAbs : ℚ) := by
    rw [← Int.cast_natCast, Int.natAbs_of_nonneg (le_of_lt hnum)]
  have hqeq : (q.num.natAbs : ℚ) / (q.den : ℚ) = q := by
    rw [← hcast]
    exact Rat.num_div_den q
  have key := exponent_bounds (q.num.natAbs : ℚ) (q.den : ℚ)
    (bitLength q.num.natAbs q.num.natAbs) (bitLength q.den q.den)
    (by exact_mod_cast ha) (by exact_mod_cast hden)
    (by exact_mod_cast a1) (by exact_mod_cast a2) (by exact_mod_cast b1) (by exact_mod_cast b2)
  rw [hqeq] at key
  obtain ⟨hlow, hup⟩ := key
  unfold binaryExponent
  simp only []
  split_ifs with h
  · exact ⟨h, hup⟩
  · refine ⟨hlow, ?_⟩
    rw [sub_add_cancel]
    exact lt_of_not_le h

theorem roundFloat64_zero : roundFloat64 0 = 0 := by
  simp [roundFloat64]

theorem roundFloat64_nonneg (q : ℚ) (h : 0 ≤ q) : 0 ≤ roundFloat64 q := by
  unfold roundFloat64
  by_cases h0 : q = 0
  · simp [h0]
  · have hneg : ¬ q < 0 := not_lt.mpr h
    simp only [h0, if_false, hneg, one_mul]
    have hulp : (0 : ℚ) < (2 : ℚ) ^ (binaryExponent |q| - 52) := zpow_pos (by norm_num) _
    have hr : (0 : ℤ) ≤ roundHalfEven (|q| / (2 : ℚ) ^ (binaryExponent |q| - 52)) :=
      roundHalfEven_ge 0 _ (by simpa using div_nonneg (abs_nonneg q) (le_of_lt hulp))
    have : (0 : ℚ) ≤ (roundHalfEven (|q| / (2 : ℚ) ^ (binaryExponent |q| - 52)) : ℚ) := by
      exact_mod_cast hr
    positivity

theorem roundFloat64_nonpos (q : ℚ) (h : q ≤ 0) : roundFloat64 q ≤ 0 := by
  unfold roundFloat64
  by_cases h0 : q = 0
  · simp [h0]
  · have hneg : q < 0 := lt_of_le_of_ne h h0
    simp only [h0, if_false, hneg, if_true]
    have hulp : (0 : ℚ) < (2 : ℚ) ^ (binaryExponent |q| - 52) := zpow_pos (by norm_num) _
    have hr : (0 : ℤ) ≤ roundHalfEven (|q| / (2 : ℚ) ^ (binaryExponent |q| - 52)) :=
      roundHalfEven_ge 0 _ (by simpa using div_nonneg (abs_nonneg q) (le_of_lt hulp))
    have : (0 : ℚ) ≤ (roundHalfEven (|q| / (2 : ℚ) ^ (binaryExponent |q| - 52)) : ℚ) := by
      exact_mod_cast hr
    have := mul_nonneg this (le_of_lt hulp)
    linarith

/-- Rounding never crosses an integer below `2 ^ 53` from above: such integers are
`float64` values. -/
theorem le_roundFloat64 (n : Int) (q : ℚ) (hn : 0 ≤ n) (hn53 : n < 2 ^ 53)
    (h : (n : ℚ) ≤ q) : (n : ℚ) ≤ roundFloat64 q := by
  rcases eq_or_lt_of_le hn with h0 | hpos
  · rw [← h0] at h ⊢
    simpa using roundFloat64_nonneg q (by simpa using h)
  · have hnQ : (0 : ℚ) < (n : ℚ) := by exact_mod_cast hpos
    have hq : 0 < q := lt_of_lt_of_le hnQ h
    have hq0 : q ≠ 0 := ne_of_gt hq
    have hneg : ¬ q < 0 := not_lt.mpr (le_of_lt hq)
    have habs : |q| = q := abs_of_pos hq
    obtain ⟨hlow, _⟩ := binaryExponent_spec q hq
    have h2 : (2 : ℚ) ≠ 0 := by norm_num
    unfold roundFloat64
    simp only [hq0, if_false, hneg, one_mul, habs]
    have hulp : (0 : ℚ) < (2 : ℚ) ^ (binaryExponent q - 52) := zpow_pos (by norm_num) _
    rcases le_or_lt (binaryExponent q) 52 with he | he
    · -- the unit in the last place is `1 / 2 ^ j`: the integer is a multiple of it
      obtain ⟨j, hj⟩ : ∃ j : ℕ, (j : ℤ) = 52 - binaryExponent q :=
        ⟨(52 - binaryExponent q).toNat, Int.toNat_of_nonneg (by omega)⟩
      have hinv : (2 : ℚ) ^ (binaryExponent q - 52) * (2 : ℚ) ^ j = 1 := by
        rw [← zpow_natCast, ← zpow_add₀ h2, hj]
        simp
      have hk : ((n * 2 ^ j : ℤ) : ℚ) ≤ q / (2 : ℚ) ^ (binaryExponent q - 52) := by
        rw [le_div_iff₀ hulp]
        push_cast
        calc (n : ℚ) * 2 ^ j * 2 ^ (binaryExponent q - 52)
            = (n : ℚ) * ((2 : ℚ) ^ (binaryExponent q - 52) * 2 ^ j) := by ring
          _ = n := by rw [hinv, mul_one]
          _ ≤ q := h
      have hr := roundHalfEven_ge _ _ hk
      have hrQ : ((n * 2 ^ j : ℤ) : ℚ) ≤
          (roundHalfEven (q / (2 : ℚ) ^ (binaryExponent q - 52)) : ℚ) := by exact_mod_cast hr
      calc (n : ℚ) = ((n * 2 ^ j : ℤ) : ℚ) * (2 : ℚ) ^ (binaryExponent q - 52) := by
            push_cast
            rw [mul_assoc, mul_comm ((2 : ℚ) ^ j), hinv, mul_one]
        _ ≤ _ := mul_le_mul_of_nonneg_right hrQ (le_of_lt hulp)
    · -- the value is at least `2 ^ 53`, above the integer
      have hk : (((2 : ℤ) ^ 52 : ℤ) : ℚ) ≤ q / (2 : ℚ) ^ (binaryExponent q - 52) := by
        rw [le_div_iff₀ hulp]
        push_cast
        calc (2 : ℚ) ^ 52 * (2 : ℚ) ^ (binaryExponent q - 52)
            = (2 : ℚ) ^ (binaryExponent q) := by
              rw [← zpow_natCast, ← zpow_add₀ h2]
              congr 1
              omega
          _ ≤ q := hlow
      have hr := roundHalfEven_ge _ _ hk
      have hrQ : (((2 : ℤ) ^ 52 : ℤ) : ℚ) ≤
          (roundHalfEven (q / (2 : ℚ) ^ (binaryExponent q - 52)) : ℚ) := by exact_mod_cast hr
      have hbig : (2 : ℚ) ^ (53 : ℤ) ≤ (2 : ℚ) ^ (binaryExponent q) :=
        zpow_le_zpow_right₀ (by norm_num) (by omega)
      have hn53Q : (n : ℚ) < (2 : ℚ) ^ (53 : ℤ) := by
        have h53 : (2 : ℚ) ^ (53 : ℤ) = ((9007199254740992 : ℤ) : ℚ) := by norm_num
        rw [h53]
        exact_mod_cast hn53
      calc (n : ℚ) ≤ (2 : ℚ) ^ (binaryExponent q) := le_of_lt (lt_of_lt_of_le hn53Q hbig)
        _ = (((2 : ℤ) ^ 52 : ℤ) : ℚ) * (2 : ℚ) ^ (binaryExponent q - 52) := by
              have h52 : (((2 : ℤ) ^ 52 : ℤ) : ℚ) = (2 : ℚ) ^ (52 : ℤ) := by norm_num
              rw [h52, ← zpow_add₀ h2]
              congr 1
              omega
        _ ≤ _ := mul_le_mul_of_nonneg_right hrQ (le_of_lt hulp)

/-- Rounding never crosses an integer below `2 ^ 53` from below. -/
theorem roundFloat64_le (n : Int) (q : ℚ) (hn : 0 ≤ n) (hn53 : n < 2 ^ 53)
    (h : q ≤ (n : ℚ)) : roundFloat64 q ≤ (n : ℚ) := by
  have hnQ : (0 : ℚ) ≤ (n : ℚ) := by exact_mod_cast hn
  rcases le_or_lt q 0 with hq | hq
  · exact le_trans (roundFloat64_nonpos q hq) hnQ
  · have hq0 : q ≠ 0 := ne_of_gt hq
    have hneg : ¬ q < 0 := not_lt.mpr (le_of_lt hq)
    have habs : |q| = q := abs_of_pos hq
    obtain ⟨hlow, _⟩ := binaryExponent_spec q hq
    have h2 : (2 : ℚ) ≠ 0 := by norm_num
    have hn53Q : (n : ℚ) < (2 : ℚ) ^ (53 : ℤ) := by
      have h53 : (2 : ℚ) ^ (53 : ℤ) = ((9007199254740992 : ℤ) : ℚ) := by norm_num
      rw [h53]
      exact_mod_cast hn53
    have he : binaryExponent q < 53 := by
      have hlt : (2 : ℚ) ^ binaryExponent q < (2 : ℚ) ^ (53 : ℤ) :=
        lt_of_le_of_lt hlow (lt_of_le_of_lt h hn53Q)
      exact (zpow_lt_zpow_iff_right₀ (by norm_num : (1 : ℚ) < 2)).mp hlt
    unfold roundFloat64
    simp only [hq0, if_false, hneg, one_mul, habs]
    have hulp : (0 : ℚ) < (2 : ℚ) ^ (binaryExponent q - 52) := zpow_pos (by norm_num) _
    obtain ⟨j, hj⟩ : ∃ j : ℕ, (j : ℤ) = 52 - binaryExponent q :=
      ⟨(52 - binaryExponent q).toNat, Int.toNat_of_nonneg (by omega)⟩
    have hinv : (2 : ℚ) ^ (binaryExponent q - 52) * (2 : ℚ) ^ j = 1 := by
      rw [← zpow_natCast, ← zpow_add₀ h2, hj]
      simp
    have hk : q / (2 : ℚ) ^ (binaryExponent q - 52) ≤ ((n * 2 ^ j : ℤ) : ℚ) := by
      rw [div_le_iff₀ hulp]
      push_cast
      calc q ≤ n := h
        _ = (n : ℚ) * ((2 : ℚ) ^ (binaryExponent q - 52) * 2 ^ j) := by rw [hinv, mul_one]
        _ = (n : ℚ) * 2 ^ j * 2 ^ (binaryExponent q - 52) := by ring
    have hr := roundHalfEven_le _ _ hk
    have hrQ : (roundHalfEven (q / (2 : ℚ) ^ (binaryExponent q - 52)) : ℚ) ≤
        ((n * 2 ^ j : ℤ) : ℚ) := by exact_mod_cast hr
    calc _ ≤ ((n * 2 ^ j : ℤ) : ℚ) * (2 : ℚ) ^ (binaryExponent q - 52) :=
          mul_le_mul_of_nonneg_right hrQ (le_of_lt hulp)
      _ = (n : ℚ) := by
          push_cast
          rw [mul_assoc, mul_comm ((2 : ℚ) ^ j), hinv, mul_one]

/-- A non-negative integer below `2 ^ 53` is a `float64` value. -/
theorem roundFloat64_int (n : Int) (hn : 0 ≤ n) (hn53 : n < 2 ^ 53) :
    roundFloat64 (n : ℚ) = (n : ℚ) :=
  le_antisymm (roundFloat64_le n _ hn hn53 (le_refl _)) (le_roundFloat64 n _ hn hn53 (le_refl _))

theorem truncate_nonpos (f : ℚ) (h : f ≤ 0) : truncate f ≤ 0 := by
  unfold truncate
  split_ifs with h0
  · have : f = 0 := le_antisymm h h0
    simp [this]
  · exact Int.ceil_le.mpr (by simpa using h)

theorem le_truncate (k : Int) (f : ℚ) (hk : 0 ≤ k) (h : (k : ℚ) ≤ f) : k ≤ truncate f := by
  have hf : (0 : ℚ) ≤ f := le_trans (by exact_mod_cast hk) h
  unfold truncate
  simp only [hf, if_true]
  exact Int.le_floor.mpr h

/-! ## Durations and day differences -/

theorem nanosPerHour_pos : 0 < nanosPerHour := by decide

theorem tmod_nonpos_of_nonpos (x n : Int) (hx : x ≤ 0) : Int.tmod x n ≤ 0 := by
  have h1 : Int.tmod x n = - Int.tmod (-x) n := by
    rw [Int.tmod_def, Int.tmod_def, Int.neg_tdiv]
    ring
  have h2 := Int.tmod_nonneg n (show 0 ≤ -x by omega)
  omega

theorem tdiv_nonpos_of_nonpos (x n : Int) (hn : 0 ≤ n) (hx : x ≤ 0) : Int.tdiv x n ≤ 0 := by
  have h1 : Int.tdiv x n = - Int.tdiv (-x) n := by rw [Int.neg_tdiv]; simp
  have h2 := Int.tdiv_nonneg (show 0 ≤ -x by omega) hn
  omega

theorem timeSub_of_le (t u : Int) (h1 : minDuration ≤ t - u) (h2 : t - u ≤ maxDuration) :
    timeSub t u = t - u := by
  unfold timeSub
  rw [if_neg (by omega), if_neg (by omega)]

theorem timeSub_of_gt (t u : Int) (h : maxDuration < t - u) : timeSub t u = maxDuration := by
  unfold timeSub
  rw [if_pos h]

theorem timeSub_nonpos (t u : Int) (h : t ≤ u) : timeSub t u ≤ 0 := by
  unfold timeSub
  have hmax : (0 : Int) < maxDuration := by decide
  have hmin : minDuration < 0 := by decide
  split_ifs <;> omega

theorem durationHours_nonpos (d : Int) (h : d ≤ 0) : durationHours d ≤ 0 := by
  unfold durationHours
  apply roundFloat64_nonpos
  have h1 : ((Int.tdiv d nanosPerHour : ℤ) : ℚ) ≤ 0 := by
    exact_mod_cast tdiv_nonpos_of_nonpos d nanosPerHour (le_of_lt nanosPerHour_pos) h
  have h2 : ((Int.tmod d nanosPerHour : ℤ) : ℚ) ≤ 0 := by
    exact_mod_cast tmod_nonpos_of_nonpos d nanosPerHour h
  have h3 : roundFloat64 (((Int.tmod d nanosPerHour : ℤ) : ℚ) / 3600000000000) ≤ 0 :=
    roundFloat64_nonpos _ (div_nonpos_of_nonpos_of_nonneg h2 (by norm_num))
  linarith

/-- A duration that is not positive counts as no day or as a negative number of days. -/
theorem days_nonpos (d : Int) (h : d ≤ 0) :
    truncate (roundFloat64 (durationHours d / 24)) ≤ 0 := by
  apply truncate_nonpos
  apply roundFloat64_nonpos
  exact div_nonpos_of_nonpos_of_nonneg (durationHours_nonpos d h) (by norm_num)

/-- A duration of at least `k` whole days counts as at least `k` days. -/
theorem le_days (d k : Int) (hk : 0 ≤ k) (hkd : k * nanosPerDay ≤ d) (hmax : d ≤ maxDuration) :
    k ≤ truncate (roundFloat64 (durationHours d / 24)) := by
  have hH := nanosPerHour_pos
  have hd : 0 ≤ d := le_trans (mul_nonneg hk (by decide)) hkd
  have hdiv : Int.tdiv d nanosPerHour = d / nanosPerHour :=
    Int.tdiv_eq_ediv hd (le_of_lt hH)
  have hhour : 24 * k ≤ Int.tdiv d nanosPerHour := by
    rw [hdiv]
    apply Int.le_ediv_of_mul_le hH
    have : k * nanosPerDay = 24 * k * nanosPerHour := by unfold nanosPerDay; ring
    omega
  have hhourmax : Int.tdiv d nanosPerHour ≤ 2562047 := by
    rw [hdiv]
    have h := Int.ediv_le_ediv hH hmax
    have hc : maxDuration / nanosPerHour = 2562047 := by decide
    omega
  have hnsec : 0 ≤ Int.tmod d nanosPerHour := Int.tmod_nonneg _ hd
  have hfrac : 0 ≤ roundFloat64 (((Int.tmod d nanosPerHour : ℤ) : ℚ) / 3600000000000) :=
    roundFloat64_nonneg _ (div_nonneg (by exact_mod_cast hnsec) (by norm_num))
  have hsum : ((24 * k : ℤ) : ℚ) ≤ durationHours d := by
    unfold durationHours
    apply le_roundFloat64 (24 * k) _ (by omega) (by norm_num; omega)
    have : ((24 * k : ℤ) : ℚ) ≤ ((Int.tdiv d nanosPerHour : ℤ) : ℚ) := by exact_mod_cast hhour
    linarith
  apply le_truncate k _ hk
  apply le_roundFloat64 k _ hk (by norm_num; omega)
  rw [le_div_iff₀ (by norm_num : (0 : ℚ) < 24)]
  have : ((24 * k : ℤ) : ℚ) = (k : ℚ) * 24 := by push_cast; ring
  linarith

theorem dateDifferenceInDays_self (date : Int) : dateDifferenceInDays date date = 0 := by
  have h : timeSub date date = 0 := by
    rw [timeSub_of_le date date (by simp; decide) (by simp; decide)]
    simp
  simp [dateDifferenceInDays, h, durationHours, roundFloat64_zero, truncate]

/-! ## Phase 1: the index loops against the list formulation -/

theorem take_removeAt {α : Type} (s : List α) (i : Nat) (h : i ≤ s.length) :
    (removeAt s i).take i = s.take i := by
  unfold removeAt
  rw [List.take_append_of_le_length (by simp [h]), List.take_take]
  simp

theorem drop_removeAt {α : Type} (s : List α) (i : Nat) (h : i ≤ s.length) :
    (removeAt s i).drop i = s.drop (i + 1) := by
  unfold removeAt
  have hl : (s.take i).length = i := by simp [h]
  rw [List.drop_append_of_le_length (by omega)]
  rw [List.drop_eq_nil_of_le (by omega)]
  simp

theorem length_removeAt {α : Type} (s : List α) (i : Nat) (h : i < s.length) :
    (removeAt s i).length + 1 = s.length := by
  unfold removeAt
  simp
  omega

theorem drop_of_getElem? {α : Type} {s : List α} {i : Nat} {a : α} (h : s[i]? = some a) :
    s.drop i = a :: s.drop (i + 1) := by
  obtain ⟨hi, rfl⟩ := List.getElem?_eq_some.mp h
  exact List.drop_eq_getElem_cons hi

theorem scanDebits_spec (days : Int) (credit : CreditTransaction)
    (debits : List DebitTransaction) :
    ∀ (fuel j : Nat), debits.length ≤ fuel + j →
      (scanDebits days credit debits fuel j).map (fun p => (p.2, removeAt debits p.1)) =
        (removeFirstMatch days credit (debits.drop j)).map
          (fun p => (p.1, debits.take j ++ p.2)) := by
  intro fuel
  induction fuel with
  | zero =>
    intro j h
    rw [List.drop_eq_nil_of_le (by omega)]
    simp [scanDebits, removeFirstMatch]
  | succ fuel ih =>
    intro j h
    unfold scanDebits
    cases hj : debits[j]? with
    | none =>
      rw [List.drop_eq_nil_of_le (List.getElem?_eq_none_iff.mp hj)]
      simp [removeFirstMatch]
    | some debit =>
      rw [drop_of_getElem? hj]
      by_cases hm : exactMatch days credit debit
      · simp [removeFirstMatch, hm, removeAt]
      · simp only [hm, if_false, removeFirstMatch]
        rw [ih (j + 1) (by omega)]
        have ht : debits.take (j + 1) = debits.take j ++ [debit] := by
          rw [List.take_succ, hj]; rfl
        cases removeFirstMatch days credit (debits.drop (j + 1)) with
        | none => rfl
        | some p => simp [ht]

theorem scanDebits_zero (days : Int) (credit : CreditTransaction)
    (debits : List DebitTransaction) :
    (scanDebits days credit debits debits.length 0).map (fun p => (p.2, removeAt debits p.1)) =
      removeFirstMatch days credit debits := by
  rw [scanDebits_spec days credit debits debits.length 0 (by omega)]
  simp only [List.drop_zero, List.take_zero, List.nil_append]
  cases removeFirstMatch days credit debits <;> simp

theorem phase1Loop_eq_foldl (days : Int) :
    ∀ (fuel i : Nat) (matched : List (List Transaction)) (credits : List CreditTransaction)
      (debits : List DebitTransaction), credits.length ≤ fuel + i →
      phase1Loop days fuel i matched credits debits =
        (credits.drop i).foldl (phase1Step days) (matched, credits.take i, debits) := by
  intro fuel
  induction fuel with
  | zero =>
    intro i matched credits debits h
    rw [List.drop_eq_nil_of_le (by omega), List.take_of_length_le (by omega)]
    simp [phase1Loop]
  | succ fuel ih =>
    intro i matched credits debits h
    unfold phase1Loop
    cases hi : credits[i]? with
    | none =>
      have hle := List.getElem?_eq_none_iff.mp hi
      rw [List.drop_eq_nil_of_le hle, List.take_of_length_le hle]
      simp
    | some credit =>
      have hlt : i < credits.length := (List.getElem?_eq_some.mp hi).1
      rw [drop_of_getElem? hi, List.foldl_cons]
      have hs := scanDebits_zero days credit debits
      cases hsc : scanDebits days credit debits debits.length 0 with
      | none =>
        rw [hsc] at hs
        simp only [Option.map_none'] at hs
        simp only [hsc]
        rw [ih (i + 1) matched credits debits (by omega)]
        have ht : credits.take (i + 1) = credits.take i ++ [credit] := by
          rw [List.take_succ, hi]; rfl
        simp [phase1Step, ← hs, ht]
      | some p =>
        obtain ⟨j, debit⟩ := p
        rw [hsc] at hs
        simp only [Option.map_some'] at hs
        simp only [hsc]
        rw [ih i _ (removeAt credits i) (removeAt debits j)
          (by have := length_removeAt credits i hlt; omega)]
        rw [take_removeAt credits i (by omega), drop_removeAt credits i (by omega)]
        simp [phase1Step, ← hs]

/-- Phase 1 computes the fold of the specification over the sorted credits. -/
theorem phase1_eq_phase1Fold (days : Int) (credits : List CreditTransaction)
    (debits : List DebitTransaction) :
    phase1 days credits debits = phase1Fold days (sortCredits credits) debits := by
  unfold phase1 phase1Fold
  rw [phase1Loop_eq_foldl days _ 0 [] _ debits (by omega)]
  simp

/-! ## Phase 2: invariants of the accumulation loop -/

theorem removeSwapLast_split {α : Type} (pre : List α) (c : α) (t : List α) :
    removeSwapLast (pre ++ c :: t) pre.length =
      pre ++ (match t.getLast? with
        | none => []
        | some last => last :: t.dropLast) := by
  rcases List.eq_nil_or_concat t with rfl | ⟨t', l, rfl⟩
  · simp [removeSwapLast]
  · simp only [List.concat_eq_append]
    have h1 : (pre ++ c :: (t' ++ [l])).getLast? = some l := by
      rw [show pre ++ c :: (t' ++ [l]) = (pre ++ c :: t') ++ [l] by simp]
      exact List.getLast?_concat _
    have h2 : (t' ++ [l]).getLast? = some l := List.getLast?_concat _
    simp only [removeSwapLast, h1, h2, List.dropLast_concat]
    rw [List.set_eq_take_cons_drop _ (by simp)]
    simp
    rw [show l :: (t' ++ [l]) = (l :: t') ++ [l] by simp]
    exact List.dropLast_concat

theorem split_of_getElem? {α : Type} {s : List α} {i : Nat} {a : α} (h : s[i]? = some a) :
    s = s.take i ++ a :: s.drop (i + 1) ∧ (s.take i).length = i := by
  obtain ⟨hi, rfl⟩ := List.getElem?_eq_some.mp h
  refine ⟨?_, by simp; omega⟩
  rw [List.getElem_cons_drop, List.take_append_drop]

theorem removeSwapLast_perm {α : Type} {s : List α} {i : Nat} {a : α} (h : s[i]? = some a) :
    (a :: removeSwapLast s i).Perm s := by
  obtain ⟨hs, hl⟩ := split_of_getElem? h
  have key := removeSwapLast_split (s.take i) a (s.drop (i + 1))
  rw [hl, ← hs] at key
  rw [key]
  have htail : (match (s.drop (i + 1)).getLast? with
        | none => []
        | some last => last :: (s.drop (i + 1)).dropLast).Perm (s.drop (i + 1)) := by
    rcases List.eq_nil_or_concat (s.drop (i + 1)) with h0 | ⟨t', l, h0⟩
    · rw [h0]; simp
    · rw [h0, List.concat_eq_append]
      simp only [List.getLast?_concat, List.dropLast_concat]
      exact (List.perm_append_singleton l t').symm
  calc (a :: (s.take i ++ _)).Perm (s.take i ++ a :: _) := List.perm_middle.symm
    _ |>.Perm (s.take i ++ a :: s.drop (i + 1)) :=
        List.Perm.append_left _ (List.Perm.cons a htail)
    _ = s := hs.symm

theorem length_removeSwapLast {α : Type} {s : List α} {i : Nat} {a : α} (h : s[i]? = some a) :
    (removeSwapLast s i).length + 1 = s.length := by
  have := (removeSwapLast_perm h).length_eq
  simpa using this

/-- The pool and the accumulated credits together are a rearrangement of what the loop started
from: the scan moves credits from the pool to `matchedCredits` and does nothing else. -/
theorem aggregateLoop_perm (days : Int) (debit : DebitTransaction) :
    ∀ (fuel i : Nat) (credits : List CreditTransaction) (remaining : ℚ)
      (matchedCredits : List CreditTransaction),
      ((aggregateLoop days debit fuel i credits remaining matchedCredits).1 ++
        (aggregateLoop days debit fuel i credits remaining matchedCredits).2.2).Perm
        (credits ++ matchedCredits) := by
  intro fuel
  induction fuel with
  | zero => intro i credits remaining matchedCredits; simp [aggregateLoop]
  | succ fuel ih =>
    intro i credits remaining matchedCredits
    unfold aggregateLoop
    cases hi : credits[i]? with
    | none => simp
    | some c =>
      simp only []
      by_cases hc : canAccumulate days debit c remaining
      · simp only [hc, if_true]
        refine (ih i _ _ _).trans ?_
        have hp := removeSwapLast_perm hi
        calc (removeSwapLast credits i ++ (matchedCredits ++ [c])).Perm
              ((removeSwapLast credits i ++ [c]) ++ matchedCredits) := by
                rw [List.append_assoc]
                exact List.Perm.append_left _ List.perm_append_comm
          _ |>.Perm ((c :: removeSwapLast credits i) ++ matchedCredits) :=
                List.Perm.append_right _ (List.perm_append_singleton c _)
          _ |>.Perm (credits ++ matchedCredits) := List.Perm.append_right _ hp
      · simp only [hc, if_false]
        exact ih (i + 1) _ _ _

/-- The accumulated list only grows, at its end. -/
theorem aggregateLoop_extends (days : Int) (debit : DebitTransaction) :
    ∀ (fuel i : Nat) (credits : List CreditTransaction) (remaining : ℚ)
      (matchedCredits : List CreditTransaction),
      ∃ added, (aggregateLoop days debit fuel i credits remaining matchedCredits).2.2
        = matchedCredits ++ added := by
  intro fuel
  induction fuel with
  | zero => intro i credits remaining matchedCredits; exact ⟨[], by simp [aggregateLoop]⟩
  | succ fuel ih =>
    intro i credits remaining matchedCredits
    unfold aggregateLoop
    cases hi : credits[i]? with
    | none => exact ⟨[], by simp⟩
    | some c =>
      simp only []
      by_cases hc : canAccumulate days debit c remaining
      · simp only [hc, if_true]
        obtain ⟨added, h⟩ := ih i (removeSwapLast credits i)
          (roundFloat64 (remaining - c.Value)) (matchedCredits ++ [c])
        exact ⟨c :: added, by rw [h]; simp⟩
      · simp only [hc, if_false]
        exact ih (i + 1) _ _ _

theorem floatRemainder_append (value : ℚ) (ts : List Transaction) (c : Transaction) :
    floatRemainder value (ts ++ [c]) = roundFloat64 (floatRemainder value ts - c.Value) := by
  simp [floatRemainder]

theorem acceptedFrom_append :
    ∀ (ts : List Transaction) (value : ℚ) (c : Transaction),
      acceptedFrom value ts → c.Value ≤ floatRemainder value ts →
      acceptedFrom value (ts ++ [c]) := by
  intro ts
  induction ts with
  | nil => intro value c _ h; exact ⟨by simpa [floatRemainder] using h, trivial⟩
  | cons t rest ih =>
    intro value c hacc h
    exact ⟨hacc.1, ih _ c hacc.2 (by simpa [floatRemainder] using h)⟩

/-- The remaining debit value is the `float64` remainder of the debit after the accumulated
credits, each of which passed the amount test at its turn. -/
theorem aggregateLoop_remaining (days : Int) (debit : DebitTransaction) (value : ℚ) :
    ∀ (fuel i : Nat) (credits : List CreditTransaction) (remaining : ℚ)
      (matchedCredits : List CreditTransaction),
      remaining = floatRemainder value (convertToTransactions matchedCredits) →
      acceptedFrom value (convertToTransactions matchedCredits) →
      (aggregateLoop days debit fuel i credits remaining matchedCredits).2.1 =
          floatRemainder value (convertToTransactions
            (aggregateLoop days debit fuel i credits remaining matchedCredits).2.2) ∧
        acceptedFrom value (convertToTransactions
          (aggregateLoop days debit fuel i credits remaining matchedCredits).2.2) := by
  intro fuel
  induction fuel with
  | zero => intro i credits remaining matchedCredits h hacc; exact ⟨h, hacc⟩
  | succ fuel ih =>
    intro i credits remaining matchedCredits h hacc
    unfold aggregateLoop
    cases hi : credits[i]? with
    | none => exact ⟨h, hacc⟩
    | some c =>
      simp only []
      by_cases hc : canAccumulate days debit c remaining
      · simp only [hc, if_true]
        have hconv : convertToTransactions (matchedCredits ++ [c]) =
            convertToTransactions matchedCredits ++ [c.toTransaction] := by
          simp [convertToTransactions]
        apply ih
        · rw [hconv, floatRemainder_append, ← h]
        · rw [hconv]
          exact acceptedFrom_append _ _ _ hacc (by rw [← h]; exact hc.1)
      · simp only [hc, if_false]
        exact ih (i + 1) _ _ _ h hacc

theorem aggregate_perm (days : Int) (debit : DebitTransaction)
    (credits : List CreditTransaction) :
    ((aggregate days debit credits).1 ++ (aggregate days debit credits).2.2).Perm credits := by
  have := aggregateLoop_perm days debit credits.length 0 credits debit.Value []
  simpa [aggregate] using this

theorem aggregate_remaining (days : Int) (debit : DebitTransaction)
    (credits : List CreditTransaction) :
    (aggregate days debit credits).2.1 =
        floatRemainder debit.Value (convertToTransactions (aggregate days debit credits).2.2) ∧
      acceptedFrom debit.Value (convertToTransactions (aggregate days debit credits).2.2) :=
  aggregateLoop_remaining days debit debit.Value credits.length 0 credits debit.Value []
    (by simp [floatRemainder, convertToTransactions]) (by simp [acceptedFrom, convertToTransactions])

/-! ## Phase 2: the loop over the debits -/

theorem phase2Loop_eq (days : Int) (threshold : ℚ) :
    ∀ (debits : List DebitTransaction) (matched : List (List Transaction))
      (credits : List CreditTransaction) (unmatchedDebits : List DebitTransaction),
      phase2Loop days threshold debits matched credits unmatchedDebits =
        (matched ++ aggregateGroups days threshold debits credits,
          poolAfter days debits credits,
          unmatchedDebits ++ failedDebits days threshold debits credits) := by
  intro debits
  induction debits with
  | nil =>
    intro matched credits unmatchedDebits
    simp [phase2Loop, aggregateGroups, poolAfter, failedDebits, accumulated]
  | cons debit rest ih =>
    intro matched credits unmatchedDebits
    unfold phase2Loop
    by_cases hw : withinTolerance threshold (aggregate days debit credits).2.1
    · simp only [hw, if_true]
      rw [ih]
      simp [aggregateGroups, poolAfter, failedDebits, accumulated, hw]
    · simp only [hw, if_false]
      rw [ih]
      simp [aggregateGroups, poolAfter, failedDebits, accumulated, hw]

theorem reconcile_eq (credits : List CreditTransaction) (debits : List DebitTransaction)
    (days : Int) (threshold : ℚ) :
    reconcile credits debits days threshold =
      ((phase1 days credits debits).1 ++
          aggregateGroups days threshold (phase1 days credits debits).2.2
            (phase1 days credits debits).2.1,
        poolAfter days (phase1 days credits debits).2.2 (phase1 days credits debits).2.1,
        failedDebits days threshold (phase1 days credits debits).2.2
          (phase1 days credits debits).2.1) := by
  unfold reconcile
  simp only [phase2Loop_eq, List.nil_append]

/-- Phase 2 only moves credits out of the pool: what is left together with everything the debits
accumulated is a rearrangement of the pool it started from. -/
theorem poolAfter_perm (days : Int) :
    ∀ (debits : List DebitTransaction) (credits : List CreditTransaction),
      (poolAfter days debits credits ++ accumulatedCredits days debits credits).Perm credits := by
  intro debits
  induction debits with
  | nil => intro credits; simp [poolAfter, accumulatedCredits, accumulated]
  | cons debit rest ih =>
    intro credits
    have h1 := ih (aggregate days debit credits).1
    have h2 := aggregate_perm days debit credits
    simp only [poolAfter, accumulatedCredits, accumulated, List.map_cons, List.flatten_cons]
    simp only [accumulatedCredits] at h1
    calc (poolAfter days rest (aggregate days debit credits).1 ++
            ((aggregate days debit credits).2.2 ++ _)).Perm
          ((aggregate days debit credits).2.2 ++
            (poolAfter days rest (aggregate days debit credits).1 ++ _)) := by
              rw [← List.append_assoc, ← List.append_assoc]
              exact List.Perm.append_right _ List.perm_append_comm
      _ |>.Perm ((aggregate days debit credits).2.2 ++ (aggregate days debit credits).1) :=
              List.Perm.append_left _ h1
      _ |>.Perm ((aggregate days debit credits).1 ++ (aggregate days debit credits).2.2) :=
              List.perm_append_comm
      _ |>.Perm credits := h2

/-- Every debit of phase 2 ends in exactly one of: an emitted group, the unmatched debits. -/
theorem phase2_debit_count (days : Int) (threshold : ℚ) :
    ∀ (debits : List DebitTransaction) (credits : List CreditTransaction),
      groupSize (aggregateGroups days threshold debits credits) +
          (failedDebits days threshold debits credits).length +
          (discardedCredits days threshold debits credits).length =
        debits.length + (accumulatedCredits days debits credits).length := by
  intro debits
  induction debits with
  | nil =>
    intro credits
    simp [groupSize, aggregateGroups, failedDebits, discardedCredits, accumulatedCredits,
      accumulated]
  | cons debit rest ih =>
    intro credits
    have h := ih (aggregate days debit credits).1
    simp only [groupSize, aggregateGroups, failedDebits, discardedCredits,
      accumulatedCredits] at h ⊢
    by_cases hw : withinTolerance threshold (aggregate days debit credits).2.1
    · simp [accumulated, hw, convertToTransactions] at h ⊢
      omega
    · simp [accumulated, hw] at h ⊢
      omega

/-! ## Phase 1: properties of the fold -/

theorem removeFirstMatch_none (days : Int) (credit : CreditTransaction) :
    ∀ (debits : List DebitTransaction), removeFirstMatch days credit debits = none →
      ∀ d ∈ debits, ¬ exactMatch days credit d := by
  intro debits
  induction debits with
  | nil => intro _ d hd; simp at hd
  | cons x xs ih =>
    intro h d hd
    unfold removeFirstMatch at h
    by_cases hm : exactMatch days credit x
    · simp [hm] at h
    · simp only [hm, if_false] at h
      cases hr : removeFirstMatch days credit xs with
      | none =>
        rcases List.mem_cons.mp hd with rfl | hd
        · exact hm
        · exact ih hr d hd
      | some p => rw [hr] at h; simp at h

/-- A hit of `removeFirstMatch` splits the list at the first matching debit. -/
theorem removeFirstMatch_some (days : Int) (credit : CreditTransaction) :
    ∀ (debits : List DebitTransaction) (d : DebitTransaction) (r : List DebitTransaction),
      removeFirstMatch days credit debits = some (d, r) →
      exactMatch days credit d ∧
        ∃ pre post, debits = pre ++ d :: post ∧ r = pre ++ post ∧
          ∀ x ∈ pre, ¬ exactMatch days credit x := by
  intro debits
  induction debits with
  | nil => intro d r h; simp [removeFirstMatch] at h
  | cons x xs ih =>
    intro d r h
    unfold removeFirstMatch at h
    by_cases hm : exactMatch days credit x
    · simp only [hm, if_true, Option.some.injEq, Prod.mk.injEq] at h
      obtain ⟨rfl, rfl⟩ := h
      exact ⟨hm, [], xs, by simp, by simp, by simp⟩
    · simp only [hm, if_false] at h
      cases hr : removeFirstMatch days credit xs with
      | none => rw [hr] at h; simp at h
      | some p =>
        obtain ⟨d', r'⟩ := p
        rw [hr] at h
        simp only [Option.some.injEq, Prod.mk.injEq] at h
        obtain ⟨rfl, rfl⟩ := h
        obtain ⟨hd, pre, post, h1, h2, h3⟩ := ih d' r' hr
        refine ⟨hd, x :: pre, post, by simp [h1], by simp [h2], ?_⟩
        intro y hy
        rcases List.mem_cons.mp hy with rfl | hy
        · exact hm
        · exact h3 y hy

theorem removeFirstMatch_perm (days : Int) (credit : CreditTransaction)
    (debits : List DebitTransaction) (d : DebitTransaction) (r : List DebitTransaction)
    (h : removeFirstMatch days credit debits = some (d, r)) : (d :: r).Perm debits := by
  obtain ⟨_, pre, post, h1, h2, _⟩ := removeFirstMatch_some days credit debits d r h
  rw [h1, h2]
  exact List.perm_middle.symm

theorem phase1Step_count (days : Int)
    (st : List (List Transaction) × List CreditTransaction × List DebitTransaction)
    (credit : CreditTransaction) :
    groupSize (phase1Step days st credit).1 + (phase1Step days st credit).2.1.length +
        (phase1Step days st credit).2.2.length =
      groupSize st.1 + st.2.1.length + st.2.2.length + 1 := by
  unfold phase1Step
  cases hr : removeFirstMatch days credit st.2.2 with
  | none => simp [groupSize]; omega
  | some p =>
    obtain ⟨d, r⟩ := p
    have := (removeFirstMatch_perm days credit st.2.2 d r hr).length_eq
    simp [groupSize] at this ⊢
    omega

theorem phase1_foldl_count (days : Int) :
    ∀ (rest : List CreditTransaction)
      (st : List (List Transaction) × List CreditTransaction × List DebitTransaction),
      groupSize (rest.foldl (phase1Step days) st).1 +
          (rest.foldl (phase1Step days) st).2.1.length +
          (rest.foldl (phase1Step days) st).2.2.length =
        groupSize st.1 + st.2.1.length + st.2.2.length + rest.length := by
  intro rest
  induction rest with
  | nil => intro st; simp
  | cons c cs ih =>
    intro st
    rw [List.foldl_cons, ih, phase1Step_count]
    simp
    omega

theorem phase1Step_noMatch (days : Int)
    (st : List (List Transaction) × List CreditTransaction × List DebitTransaction)
    (credit : CreditTransaction)
    (h : ∀ c ∈ st.2.1, ∀ d ∈ st.2.2, ¬ exactMatch days c d) :
    ∀ c ∈ (phase1Step days st credit).2.1, ∀ d ∈ (phase1Step days st credit).2.2,
      ¬ exactMatch days c d := by
  unfold phase1Step
  cases hr : removeFirstMatch days credit st.2.2 with
  | none =>
    intro c hc d hd
    simp only [List.mem_append, List.mem_singleton] at hc
    rcases hc with hc | rfl
    · exact h c hc d hd
    · exact removeFirstMatch_none days c st.2.2 hr d hd
  | some p =>
    obtain ⟨d', r⟩ := p
    intro c hc d hd
    have hp := removeFirstMatch_perm days credit st.2.2 d' r hr
    exact h c hc d (hp.subset (List.mem_cons_of_mem _ hd))

theorem phase1_foldl_noMatch (days : Int) :
    ∀ (rest : List CreditTransaction)
      (st : List (List Transaction) × List CreditTransaction × List DebitTransaction),
      (∀ c ∈ st.2.1, ∀ d ∈ st.2.2, ¬ exactMatch days c d) →
      ∀ c ∈ (rest.foldl (phase1Step days) st).2.1,
        ∀ d ∈ (rest.foldl (phase1Step days) st).2.2, ¬ exactMatch days c d := by
  intro rest
  induction rest with
  | nil => intro st h; simpa using h
  | cons c cs ih =>
    intro st h
    rw [List.foldl_cons]
    exact ih _ (phase1Step_noMatch days st c h)

/-- After phase 1 no credit left in the pool matches a debit left in the working list. -/
theorem phase1_noMatch (days : Int) (credits : List CreditTransaction)
    (debits : List DebitTransaction) :
    ∀ c ∈ (phase1 days credits debits).2.1, ∀ d ∈ (phase1 days credits debits).2.2,
      ¬ exactMatch days c d := by
  rw [phase1_eq_phase1Fold]
  exact phase1_foldl_noMatch days _ _ (by simp)

theorem sortCredits_perm (credits : List CreditTransaction) :
    (sortCredits credits).Perm credits :=
  List.perm_insertionSort _ _

/-- Phase 1 conserves the postings: every credit and debit is in a pair or still in its list. -/
theorem phase1_count (days : Int) (credits : List CreditTransaction)
    (debits : List DebitTransaction) :
    groupSize (phase1 days credits debits).1 + (phase1 days credits debits).2.1.length +
        (phase1 days credits debits).2.2.length = credits.length + debits.length := by
  rw [phase1_eq_phase1Fold]
  unfold phase1Fold
  rw [phase1_foldl_count]
  have := (sortCredits_perm credits).length_eq
  simp [groupSize]
  omega

theorem groupSize_append (a b : List (List Transaction)) :
    groupSize (a ++ b) = groupSize a + groupSize b := by
  simp [groupSize]

/-- The count of postings through the whole of `reconcile`, with the credits that failed
aggregations took with them made explicit. -/
theorem reconcile_count (credits : List CreditTransaction) (debits : List DebitTransaction)
    (days : Int) (threshold : ℚ) :
    groupSize (reconcile credits debits days threshold).1 +
        (reconcile credits debits days threshold).2.1.length +
        (reconcile credits debits days threshold).2.2.length +
        (discardedCredits days threshold (phase1 days credits debits).2.2
          (phase1 days credits debits).2.1).length =
      credits.length + debits.length := by
  rw [reconcile_eq]
  simp only [groupSize_append]
  have h1 := phase1_count days credits debits
  have h2 := phase2_debit_count days threshold (phase1 days credits debits).2.2
    (phase1 days credits debits).2.1
  have h3 := (poolAfter_perm days (phase1 days credits debits).2.2
    (phase1 days credits debits).2.1).length_eq
  simp only [List.length_append] at h3
  omega

/-! ## The step budgets are enough -/

/-- A larger budget does not change the debit scan: with `len(debits) - j` steps the loop has
run to its end. -/
theorem scanDebits_budget (days : Int) (credit : CreditTransaction)
    (debits : List DebitTransaction) :
    ∀ (fuel j k : Nat), debits.length ≤ fuel + j →
      scanDebits days credit debits (fuel + k) j = scanDebits days credit debits fuel j := by
  intro fuel
  induction fuel with
  | zero =>
    intro j k h
    cases k with
    | zero => rfl
    | succ k =>
      have : debits[j]? = none := List.getElem?_eq_none (by omega)
      simp [scanDebits, this]
  | succ fuel ih =>
    intro j k h
    rw [show fuel + 1 + k = (fuel + k) + 1 by omega]
    unfold scanDebits
    cases debits[j]? with
    | none => rfl
    | some debit =>
      simp only []
      rw [ih (j + 1) k (by omega)]

/-- A larger budget does not change phase 1: with `len(credits) - i` steps the loop has run to
its end. -/
theorem phase1Loop_budget (days : Int) (fuel i k : Nat) (matched : List (List Transaction))
    (credits : List CreditTransaction) (debits : List DebitTransaction)
    (h : credits.length ≤ fuel + i) :
    phase1Loop days (fuel + k) i matched credits debits =
      phase1Loop days fuel i matched credits debits := by
  rw [phase1Loop_eq_foldl days (fuel + k) i matched credits debits (by omega),
    phase1Loop_eq_foldl days fuel i matched credits debits h]

/-- A larger budget does not change the accumulation scan: with `len(credits) - i` steps the
loop has run to its end. -/
theorem aggregateLoop_budget (days : Int) (debit : DebitTransaction) :
    ∀ (fuel i k : Nat) (credits : List CreditTransaction) (remaining : ℚ)
      (matchedCredits : List CreditTransaction), credits.length ≤ fuel + i →
      aggregateLoop days debit (fuel + k) i credits remaining matchedCredits =
        aggregateLoop days debit fuel i credits remaining matchedCredits := by
  intro fuel
  induction fuel with
  | zero =>
    intro i k credits remaining matchedCredits h
    cases k with
    | zero => rfl
    | succ k =>
      have : credits[i]? = none := List.getElem?_eq_none (by omega)
      simp [aggregateLoop, this]
  | succ fuel ih =>
    intro i k credits remaining matchedCredits h
    rw [show fuel + 1 + k = (fuel + k) + 1 by omega]
    unfold aggregateLoop
    cases hi : credits[i]? with
    | none => rfl
    | some c =>
      simp only []
      by_cases hc : canAccumulate days debit c remaining
      · simp only [hc, if_true]
        exact ih i k _ _ _ (by have := length_removeSwapLast hi; omega)
      · simp only [hc, if_false]
        exact ih (i + 1) k _ _ _ (by omega)

/-! ## Phase 2: what each debit accumulated -/

theorem accumulated_remaining (days : Int) :
    ∀ (debits : List DebitTransaction) (credits : List CreditTransaction),
      ∀ e ∈ accumulated days debits credits,
        e.2.1 = floatRemainder e.1.Value (convertToTransactions e.2.2) ∧
          acceptedFrom e.1.Value (convertToTransactions e.2.2) := by
  intro debits
  induction debits with
  | nil => intro credits e he; simp [accumulated] at he
  | cons debit rest ih =>
    intro credits e he
    simp only [accumulated, List.mem_cons] at he
    rcases he with rfl | he
    · exact aggregate_remaining days debit credits
    · exact ih _ e he

theorem nanosPerDay_pos : 0 < nanosPerDay := by decide

/-- With non-negative integer amounts below `2 ^ 53` no subtraction of phase 2 rounds: the
`float64` remainder is the exact difference. -/
theorem floatRemainder_exact :
    ∀ (cs : List Transaction) (value : ℚ) (v : Int), value = (v : ℚ) → 0 ≤ v → v < 2 ^ 53 →
      (∀ c ∈ cs, ∃ n : Int, c.Value = (n : ℚ) ∧ 0 ≤ n) → acceptedFrom value cs →
      floatRemainder value cs = value - sumValues cs := by
  intro cs
  induction cs with
  | nil => intro value v _ _ _ _ _; simp [floatRemainder, sumValues]
  | cons c rest ih =>
    intro value v hv h0 h53 hint hacc
    obtain ⟨n, hn, hn0⟩ := hint c (List.mem_cons_self _ _)
    have hle : n ≤ v := by
      have := hacc.1
      rw [hn, hv] at this
      exact_mod_cast this
    have hstep : roundFloat64 (value - c.Value) = ((v - n : ℤ) : ℚ) := by
      rw [hv, hn, ← Int.cast_sub]
      exact roundFloat64_int (v - n) (by omega) (by omega)
    have hrec := ih (roundFloat64 (value - c.Value)) (v - n) hstep (by omega) (by omega)
      (fun x hx => hint x (List.mem_cons_of_mem _ hx)) hacc.2
    have hfold : floatRemainder value (c :: rest) =
        floatRemainder (roundFloat64 (value - c.Value)) rest := by
      simp [floatRemainder]
    rw [hfold, hrec, hstep]
    simp only [sumValues, List.map_cons, List.sum_cons, hn, hv]
    push_cast
    ring

/-! ## The sort -/

theorem creditLE_iff (a b : CreditTransaction) : creditLE a b ↔ creditOrder a b := by
  unfold creditLE creditLess creditOrder
  by_cases h : b.Date = a.Date
  · simp [h]
  · simp only [h, if_false, not_lt]
    constructor
    · intro hle
      exact Or.inl (lt_of_le_of_ne hle (fun e => h e.symm))
    · rintro (hlt | ⟨he, _⟩)
      · exact le_of_lt hlt
      · exact absurd he.symm h

theorem creditLE_total (a b : CreditTransaction) : creditLE a b ∨ creditLE b a := by
  rw [creditLE_iff, creditLE_iff]
  unfold creditOrder
  rcases lt_trichotomy a.Date b.Date with h | h | h
  · exact Or.inl (Or.inl h)
  · rcases le_total a.Value b.Value with hv | hv
    · exact Or.inr (Or.inr ⟨h.symm, hv⟩)
    · exact Or.inl (Or.inr ⟨h, hv⟩)
  · exact Or.inr (Or.inl h)

theorem creditLE_trans (a b c : CreditTransaction) :
    creditLE a b → creditLE b c → creditLE a c := by
  rw [creditLE_iff, creditLE_iff, creditLE_iff]
  unfold creditOrder
  rintro (h1 | ⟨h1, v1⟩) (h2 | ⟨h2, v2⟩)
  · exact Or.inl (lt_trans h1 h2)
  · exact Or.inl (h2 ▸ h1)
  · exact Or.inl (h1 ▸ h2)
  · exact Or.inr ⟨h1.trans h2, le_trans v2 v1⟩

theorem sortCredits_sorted (credits : List CreditTransaction) :
    List.Sorted creditOrder (sortCredits credits) := by
  haveI : IsTotal CreditTransaction creditLE := ⟨creditLE_total⟩
  haveI : IsTrans CreditTransaction creditLE := ⟨creditLE_trans⟩
  have h := List.sorted_insertionSort creditLE credits
  exact List.Pairwise.imp (fun hab => (creditLE_iff _ _).mp hab) h

/-! ## Swap-with-last against compaction -/

/-- Overwriting with the last element and truncating is order-preserving removal exactly when
the removed element is the last or the next to last one. -/
theorem removeSwapLast_eq_removeAt {α : Type} (s : List α) (i : Nat) (hi : i < s.length)
    (h2 : s.length ≤ i + 2) : removeSwapLast s i = removeAt s i := by
  obtain ⟨a, ha⟩ : ∃ a, s[i]? = some a := ⟨s[i], List.getElem?_eq_getElem hi⟩
  obtain ⟨hs, hl⟩ := split_of_getElem? ha
  have key := removeSwapLast_split (s.take i) a (s.drop (i + 1))
  rw [hl, ← hs] at key
  rw [key]
  unfold removeAt
  congr 1
  have hlen : (s.drop (i + 1)).length ≤ 1 := by simp; omega
  match hd : s.drop (i + 1), hlen with
  | [], _ => simp
  | [x], _ => simp

theorem aggregateLoop_eq_compact (days : Int) (debit : DebitTransaction) :
    ∀ (fuel i : Nat) (credits : List CreditTransaction) (remaining : ℚ)
      (matchedCredits : List CreditTransaction), credits.length ≤ 2 →
      aggregateLoop days debit fuel i credits remaining matchedCredits =
        aggregateLoopCompact days debit fuel i credits remaining matchedCredits := by
  intro fuel
  induction fuel with
  | zero => intro i credits remaining matchedCredits _; rfl
  | succ fuel ih =>
    intro i credits remaining matchedCredits hlen
    unfold aggregateLoop aggregateLoopCompact
    cases hi : credits[i]? with
    | none => rfl
    | some c =>
      have hlt : i < credits.length := (List.getElem?_eq_some.mp hi).1
      simp only []
      by_cases hc : canAccumulate days debit c remaining
      · simp only [hc, if_true]
        rw [removeSwapLast_eq_removeAt credits i hlt (by omega)]
        exact ih i _ _ _ (by have := length_removeAt credits i hlt; omega)
      · simp only [hc, if_false]
        exact ih (i + 1) _ _ _ hlen

theorem aggregate_eq_compact (days : Int) (debit : DebitTransaction)
    (credits : List CreditTransaction) (h : credits.length ≤ 2) :
    aggregate days debit credits = aggregateCompact days debit credits :=
  aggregateLoop_eq_compact days debit _ 0 credits _ [] h

theorem aggregate_length_le (days : Int) (debit : DebitTransaction)
    (credits : List CreditTransaction) :
    (aggregate days debit credits).1.length ≤ credits.length := by
  have := (aggregate_perm days debit credits).length_eq
  simp only [List.length_append] at this
  omega

theorem phase2Loop_eq_compact (days : Int) (threshold : ℚ) :
    ∀ (debits : List DebitTransaction) (matched : List (List Transaction))
      (credits : List CreditTransaction) (unmatchedDebits : List DebitTransaction),
      credits.length ≤ 2 →
      phase2Loop days threshold debits matched credits unmatchedDebits =
        phase2LoopCompact days threshold debits matched credits unmatchedDebits := by
  intro debits
  induction debits with
  | nil => intro matched credits unmatchedDebits _; rfl
  | cons debit rest ih =>
    intro matched credits unmatchedDebits hlen
    unfold phase2Loop phase2LoopCompact
    have hle := aggregate_length_le days debit credits
    rw [← aggregate_eq_compact days debit credits hlen]
    by_cases hw : withinTolerance threshold (aggregate days debit credits).2.1
    · simp only [hw, if_true]
      exact ih _ _ _ (by omega)
    · simp only [hw, if_false]
      exact ih _ _ _ (by omega)

/-! ## The loader -/

theorem parseRecords_of_three_fields (parseFloat : String → Option ℚ)
    (parseDate : String → Option Int) :
    ∀ (records : List (List String)) (transactions : List Transaction),
      (∀ r ∈ records, 3 ≤ r.length) →
      parseRecords parseFloat parseDate records transactions =
        some (transactions ++ postingsOf parseFloat parseDate records) := by
  intro records
  induction records with
  | nil => intro transactions _; simp [parseRecords, postingsOf]
  | cons record rest ih =>
    intro transactions h
    have hlen : 3 ≤ record.length := h record (List.mem_cons_self _ _)
    have hrest : ∀ r ∈ rest, 3 ≤ r.length := fun r hr => h r (List.mem_cons_of_mem _ hr)
    obtain ⟨f0, f1, f2, more, rfl⟩ : ∃ f0 f1 f2 more, record = f0 :: f1 :: f2 :: more := by
      match record, hlen with
      | f0 :: f1 :: f2 :: more, _ => exact ⟨f0, f1, f2, more, rfl⟩
    unfold parseRecords
    simp only [postingsOf, List.filterMap_cons, postingOf, List.getElem?_cons_succ,
      List.getElem?_cons_zero]
    cases hv : parseFloat f2 with
    | none => simp only []; rw [ih transactions hrest]; rfl
    | some value =>
      cases hd : parseDate f1 with
      | none => simp only []; rw [ih transactions hrest]; rfl
      | some date =>
        simp only []
        rw [ih _ hrest]
        simp [postingsOf]

theorem parseRecords_short_record (parseFloat : String → Option ℚ)
    (parseDate : String → Option Int) (record : List String) (rest : List (List String))
    (transactions : List Transaction) (h : record.length < 3) :
    parseRecords parseFloat parseDate (record :: rest) transactions = none := by
  unfold parseRecords
  have : record[2]? = none := List.getElem?_eq_none (by omega)
  simp [this]

theorem parseRecords_append (parseFloat : String → Option ℚ)
    (parseDate : String → Option Int) :
    ∀ (pre more : List (List String)) (transactions : List Transaction),
      (∀ r ∈ pre, 3 ≤ r.length) →
      parseRecords parseFloat parseDate (pre ++ more) transactions =
        parseRecords parseFloat parseDate more
          (transactions ++ postingsOf parseFloat parseDate pre) := by
  intro pre
  induction pre with
  | nil => intro more transactions _; simp [postingsOf]
  | cons record rest ih =>
    intro more transactions h
    have hlen : 3 ≤ record.length := h record (List.mem_cons_self _ _)
    have hrest : ∀ r ∈ rest, 3 ≤ r.length := fun r hr => h r (List.mem_cons_of_mem _ hr)
    obtain ⟨f0, f1, f2, fs, rfl⟩ : ∃ f0 f1 f2 fs, record = f0 :: f1 :: f2 :: fs := by
      match record, hlen with
      | f0 :: f1 :: f2 :: fs, _ => exact ⟨f0, f1, f2, fs, rfl⟩
    rw [List.cons_append]
    conv_lhs => unfold parseRecords
    simp only [postingsOf, List.filterMap_cons, postingOf, List.getElem?_cons_succ,
      List.getElem?_cons_zero]
    cases hv : parseFloat f2 with
    | none => simp only []; rw [ih more transactions hrest]; rfl
    | some value =>
      cases hd : parseDate f1 with
      | none => simp only []; rw [ih more transactions hrest]; rfl
      | some date =>
        simp only []
        rw [ih more _ hrest]
        simp [postingsOf]

/-! ## The header loop -/

theorem removeRowsLoop_past {α : Type} :
    ∀ (n i : Nat) (sheet : List α), sheet.length < i →
      removeRowsLoop n i sheet = some sheet := by
  intro n
  induction n with
  | zero => intro i sheet _; rfl
  | succ n ih =>
    intro i sheet h
    unfold removeRowsLoop
    by_cases h25 : i ≤ 25
    · have hlt : ¬ i < 1 := by omega
      simp only [h25, if_true, RemoveRow, hlt, if_false]
      rw [List.eraseIdx_of_length_le (by omega)]
      exact ih (i + 1) sheet (by omega)
    · simp only [h25, if_false]

theorem removeRowsLoop_eq {α : Type} :
    ∀ (n : Nat) (pre rest : List α), pre.length + n ≤ 25 →
      removeRowsLoop n (pre.length + 1) (pre ++ rest) = some (pre ++ dropAlternate n rest) := by
  intro n
  induction n with
  | zero => intro pre rest _; simp [removeRowsLoop, dropAlternate]
  | succ n ih =>
    intro pre rest h
    unfold removeRowsLoop
    have h25 : pre.length + 1 ≤ 25 := by omega
    simp only [h25, if_true, RemoveRow, Nat.add_sub_cancel]
    have hlt : ¬ pre.length + 1 < 1 := by omega
    simp only [hlt, if_false]
    match rest with
    | [] =>
      have : (pre ++ ([] : List α)).eraseIdx pre.length = pre := by
        rw [List.eraseIdx_of_length_le]; simp; simp
      rw [this, removeRowsLoop_past n _ pre (by omega)]
      simp [dropAlternate]
    | [x] =>
      have : (pre ++ [x]).eraseIdx pre.length = pre := by
        rw [List.eraseIdx_append_of_length_le (le_refl _)]; simp
      rw [this, removeRowsLoop_past n _ pre (by omega)]
      simp [dropAlternate]
    | x :: y :: l =>
      have : (pre ++ x :: y :: l).eraseIdx pre.length = (pre ++ [y]) ++ l := by
        rw [List.eraseIdx_append_of_length_le (le_refl _)]; simp
      rw [this]
      have hl : (pre ++ [y]).length = pre.length + 1 := by simp
      rw [← hl, ih (pre ++ [y]) l (by rw [hl]; omega)]
      simp [dropAlternate]

theorem removeFirstRows_eq {α : Type} (sheet : List α) :
    removeFirstRows sheet = some (dropAlternate 25 sheet) := by
  have := removeRowsLoop_eq 25 ([] : List α) sheet (by simp)
  simpa [removeFirstRows] using this

/-! ## The report -/

theorem renderGroup_isSome (g : List Transaction) (h : g ≠ []) :
    ∃ line, renderGroup g = some line := by
  match g, h with
  | [d], _ => exact ⟨_, rfl⟩
  | [d, c], _ => exact ⟨_, rfl⟩
  | d :: c :: e :: l, _ => exact ⟨_, rfl⟩

theorem renderGroups_cons (g : List Transaction) (gs : List (List Transaction)) :
    renderGroups (g :: gs) =
      match renderGroup g, renderGroups gs with
      | some line, some more => some (line ++ more)
      | _, _ => none := rfl

theorem renderGroups_isSome :
    ∀ (groups : List (List Transaction)), (∀ g ∈ groups, g ≠ []) →
      ∃ lines, renderGroups groups = some lines := by
  intro groups
  induction groups with
  | nil => intro _; exact ⟨"", rfl⟩
  | cons g gs ih =>
    intro h
    obtain ⟨line, hl⟩ := renderGroup_isSome g (h g (List.mem_cons_self _ _))
    obtain ⟨more, hm⟩ := ih (fun x hx => h x (List.mem_cons_of_mem _ hx))
    exact ⟨line ++ more, by rw [renderGroups_cons, hl, hm]⟩

theorem comma_mem_leftovers (ts : List Transaction) (h : ts ≠ []) :
    ',' ∈ (String.join (ts.map renderLeftover)).data := by
  match ts, h with
  | t :: rest, _ =>
    simp [String.data_join, renderLeftover]

theorem leftovers_ne_none (ts : List Transaction) (h : ts ≠ []) :
    String.join (ts.map renderLeftover) ≠ "None\n" := by
  intro he
  have hc := comma_mem_leftovers ts h
  rw [he] at hc
  exact absurd hc (by decide)

theorem firstPostings_append (a b : List (List Transaction)) :
    firstPostings (a ++ b) = firstPostings a ++ firstPostings b := by
  simp [firstPostings]

theorem otherPostings_append (a b : List (List Transaction)) :
    otherPostings (a ++ b) = otherPostings a ++ otherPostings b := by
  simp [otherPostings]

theorem phase1Step_credits (days : Int)
    (st : List (List Transaction) × List CreditTransaction × List DebitTransaction)
    (credit : CreditTransaction) :
    (firstPostings (phase1Step days st credit).1 ++
        convertToTransactions (phase1Step days st credit).2.1).Perm
      (firstPostings st.1 ++ convertToTransactions st.2.1 ++ [credit.toTransaction]) := by
  unfold phase1Step
  cases hr : removeFirstMatch days credit st.2.2 with
  | none => simp [convertToTransactions]
  | some p =>
    obtain ⟨d, r⟩ := p
    simp only [firstPostings_append]
    rw [List.append_assoc, List.append_assoc]
    refine List.Perm.append_left _ ?_
    simpa [firstPostings] using
      (List.perm_append_comm :
        ([credit.toTransaction] ++ convertToTransactions st.2.1).Perm
          (convertToTransactions st.2.1 ++ [credit.toTransaction]))

theorem phase1Step_debits (days : Int)
    (st : List (List Transaction) × List CreditTransaction × List DebitTransaction)
    (credit : CreditTransaction) :
    (otherPostings (phase1Step days st credit).1 ++
        (phase1Step days st credit).2.2.map (fun d => d.toTransaction)).Perm
      (otherPostings st.1 ++ st.2.2.map (fun d => d.toTransaction)) := by
  unfold phase1Step
  cases hr : removeFirstMatch days credit st.2.2 with
  | none => exact List.Perm.refl _
  | some p =>
    obtain ⟨d, r⟩ := p
    have hp := (removeFirstMatch_perm days credit st.2.2 d r hr).map (fun d => d.toTransaction)
    simp only [otherPostings_append]
    rw [List.append_assoc]
    refine List.Perm.append_left _ ?_
    simpa [otherPostings] using hp

theorem phase1_foldl_postings (days : Int) :
    ∀ (rest : List CreditTransaction)
      (st : List (List Transaction) × List CreditTransaction × List DebitTransaction),
      (firstPostings (rest.foldl (phase1Step days) st).1 ++
          convertToTransactions (rest.foldl (phase1Step days) st).2.1).Perm
        (firstPostings st.1 ++ convertToTransactions st.2.1 ++ convertToTransactions rest) ∧
      (otherPostings (rest.foldl (phase1Step days) st).1 ++
          (rest.foldl (phase1Step days) st).2.2.map (fun d => d.toTransaction)).Perm
        (otherPostings st.1 ++ st.2.2.map (fun d => d.toTransaction)) := by
  intro rest
  induction rest with
  | nil => intro st; simp [convertToTransactions]
  | cons c cs ih =>
    intro st
    rw [List.foldl_cons]
    obtain ⟨h1, h2⟩ := ih (phase1Step days st c)
    refine ⟨h1.trans ?_, h2.trans (phase1Step_debits days st c)⟩
    have := (phase1Step_credits days st c).append_right (convertToTransactions cs)
    refine this.trans ?_
    simp [convertToTransactions]

/-- Phase 1 neither loses nor invents a posting: the credits of its pairs and the credits it
keeps are the input credits, the debits of its pairs and the debits it keeps the input debits. -/
theorem phase1_postings (days : Int) (credits : List CreditTransaction)
    (debits : List DebitTransaction) :
    (firstPostings (phase1 days credits debits).1 ++
        convertToTransactions (phase1 days credits debits).2.1).Perm
      (convertToTransactions credits) ∧
    (otherPostings (phase1 days credits debits).1 ++
        (phase1 days credits debits).2.2.map (fun d => d.toTransaction)).Perm
      (debits.map (fun d => d.toTransaction)) := by
  rw [phase1_eq_phase1Fold]
  obtain ⟨h1, h2⟩ := phase1_foldl_postings days (sortCredits credits) ([], [], debits)
  constructor
  · refine h1.trans ?_
    simpa [firstPostings, convertToTransactions] using
      (sortCredits_perm credits).map (fun c => c.toTransaction)
  · simpa [otherPostings] using h2

/-- Every debit of phase 2 heads a group or is left unmatched. -/
theorem phase2_debits (days : Int) (threshold : ℚ) :
    ∀ (debits : List DebitTransaction) (credits : List CreditTransaction),
      (firstPostings (aggregateGroups days threshold debits credits) ++
          (failedDebits days threshold debits credits).map (fun d => d.toTransaction)).Perm
        (debits.map (fun d => d.toTransaction)) := by
  intro debits
  induction debits with
  | nil => intro credits; simp [firstPostings, aggregateGroups, failedDebits, accumulated]
  | cons debit rest ih =>
    intro credits
    have h := ih (aggregate days debit credits).1
    simp only [firstPostings, aggregateGroups, failedDebits] at h ⊢
    by_cases hw : withinTolerance threshold (aggregate days debit credits).2.1
    · simpa [accumulated, hw] using h
    · simp only [accumulated, List.filter_cons, hw, decide_False, decide_True, Bool.false_eq_true,
        if_false, not_false_eq_true, if_true, List.map_cons]
      exact List.perm_middle.trans (List.Perm.cons _ h)

/-- The credits in the groups of phase 2 are among the credits its debits accumulated. -/
theorem phase2_credits (days : Int) (threshold : ℚ) :
    ∀ (debits : List DebitTransaction) (credits : List CreditTransaction),
      (otherPostings (aggregateGroups days threshold debits credits)).Sublist
        (convertToTransactions (accumulatedCredits days debits credits)) := by
  intro debits
  induction debits with
  | nil =>
    intro credits
    simp [otherPostings, aggregateGroups, accumulatedCredits, accumulated, convertToTransactions]
  | cons debit rest ih =>
    intro credits
    have h := ih (aggregate days debit credits).1
    simp only [otherPostings, aggregateGroups, accumulatedCredits, convertToTransactions] at h ⊢
    by_cases hw : withinTolerance threshold (aggregate days debit credits).2.1
    · simp only [accumulated, List.filter_cons, hw, decide_True, if_true, List.map_cons,
        List.tail_cons, List.flatten_cons, List.map_append, convertToTransactions]
      exact List.Sublist.append (List.Sublist.refl _) h
    · simp only [accumulated, List.filter_cons, hw, decide_False, Bool.false_eq_true, if_false,
        List.map_cons, List.flatten_cons, List.map_append]
      exact h.trans (List.sublist_append_right _ _)

/-! ## Claims -/

/-- C1 (as stated, refuted): with credits `[A 100]`, debits `[X 150]` on the same date,
`days = 0` and `threshold = 0`, `reconcile` returns no group, no unmatched credit and the
unmatched debit `X`: two postings went in and one came out, so the count is not conserved. -/
theorem count_conservation_counterexample :
    (0 : Int) ≤ 0 ∧ (0 : ℚ) ≤ 0 ∧
    reconcile [toCredit "A" 100 (dateOf 2024 1 1)] [toDebit "X" 150 (dateOf 2024 1 1)] 0 0 =
      ([], [], [toDebit "X" 150 (dateOf 2024 1 1)]) ∧
    [toCredit "A" 100 (dateOf 2024 1 1)].length + [toDebit "X" 150 (dateOf 2024 1 1)].length ≠
      groupSize
          (reconcile [toCredit "A" 100 (dateOf 2024 1 1)]
            [toDebit "X" 150 (dateOf 2024 1 1)] 0 0).1 +
        (reconcile [toCredit "A" 100 (dateOf 2024 1 1)]
            [toDebit "X" 150 (dateOf 2024 1 1)] 0 0).2.1.length +
        (reconcile [toCredit "A" 100 (dateOf 2024 1 1)]
            [toDebit "X" 150 (dateOf 2024 1 1)] 0 0).2.2.length := by
  decide!

/-- C1 (amended): for every input, `len(credits) + len(debits)` equals the sum of the group
sizes plus the numbers of unmatched credits and unmatched debits plus the number of credits
accumulated by phase-2 debits that then failed the tolerance test; so the outputs never hold
more postings than the inputs. -/
theorem count_conservation_amended (credits : List CreditTransaction)
    (debits : List DebitTransaction) (days : Int) (threshold : ℚ) :
    credits.length + debits.length =
        groupSize (reconcile credits debits days threshold).1 +
          (reconcile credits debits days threshold).2.1.length +
          (reconcile credits debits days threshold).2.2.length +
          (discardedCredits days threshold (phase1 days credits debits).2.2
            (phase1 days credits debits).2.1).length ∧
      groupSize (reconcile credits debits days threshold).1 +
          (reconcile credits debits days threshold).2.1.length +
          (reconcile credits debits days threshold).2.2.length ≤
        credits.length + debits.length := by
  have h := reconcile_count credits debits days threshold
  constructor <;> omega

/-- C2: after phase 1 no credit left in the working credit list matches (equal amount and
proximity predicate) a debit left in the working debit list; hence a credit that phase 2
accumulates toward some debit, whether the aggregation is accepted or fails, or that ends in
`unmatchedCredits`, has no matching debit among the debits phase 2 processes. -/
theorem exact_match_priority (credits : List CreditTransaction)
    (debits : List DebitTransaction) (days : Int) (threshold : ℚ)
    (c : CreditTransaction) (d : DebitTransaction)
    (hd : d ∈ (phase1 days credits debits).2.2)
    (hc : c ∈ (phase1 days credits debits).2.1 ∨
      c ∈ (reconcile credits debits days threshold).2.1 ∨
      ∃ e ∈ accumulated days (phase1 days credits debits).2.2 (phase1 days credits debits).2.1,
        c ∈ e.2.2) :
    ¬ (c.Value = d.Value ∧ dateDifferenceInDays c.Date d.Date ≤ days) := by
  have hpool : c ∈ (phase1 days credits debits).2.1 := by
    have hperm := poolAfter_perm days (phase1 days credits debits).2.2
      (phase1 days credits debits).2.1
    rcases hc with hc | hc | ⟨e, he, hce⟩
    · exact hc
    · rw [reconcile_eq] at hc
      exact hperm.subset (List.mem_append_left _ hc)
    · refine hperm.subset (List.mem_append_right _ ?_)
      simp only [accumulatedCredits, List.mem_flatten, List.mem_map]
      exact ⟨e.2.2, ⟨e, he, rfl⟩, hce⟩
  exact phase1_noMatch days credits debits c hpool d hd

/-- C2 (witness): credit `A` dated ten days after debit `X` of the same amount, `days = 7`:
both stay in the working lists after phase 1 and do not match. -/
theorem exact_match_priority_witness :
    toDebit "X" 100 (dateOf 2024 1 1) ∈
      (phase1 7 [toCredit "A" 100 (dateOf 2024 1 11)] [toDebit "X" 100 (dateOf 2024 1 1)]).2.2 ∧
    toCredit "A" 100 (dateOf 2024 1 11) ∈
      (phase1 7 [toCredit "A" 100 (dateOf 2024 1 11)] [toDebit "X" 100 (dateOf 2024 1 1)]).2.1 ∧
    ¬ ((toCredit "A" 100 (dateOf 2024 1 11)).Value = (toDebit "X" 100 (dateOf 2024 1 1)).Value ∧
      dateDifferenceInDays (toCredit "A" 100 (dateOf 2024 1 11)).Date
        (toDebit "X" 100 (dateOf 2024 1 1)).Date ≤ 7) :=
  ⟨by decide!, by decide!,
    exact_match_priority [toCredit "A" 100 (dateOf 2024 1 11)]
      [toDebit "X" 100 (dateOf 2024 1 1)] 7 0 _ _ (by decide!) (Or.inl (by decide!))⟩

/-- C3 (as stated, refuted): credits `A` and `B` and debit `X` whose amounts are the `float64`
values written `0.1`, `0.6` and `0.7`, dated 1, 2 and 3 January 2024, `days = 7`,
`threshold = 0`. Phase 2 computes `0.7 - 0.1 = 0.6` and `0.6 - 0.6 = 0` in `float64` and emits
the group `[X, A, B]`; with the amounts taken as exact numbers the difference
`X - (A + B)` is `-1 / 2 ^ 55`, outside `[-0, 0]`. -/
theorem aggregate_tolerance_counterexample :
    roundFloat64 (1 / 10) = 3602879701896397 / 36028797018963968 ∧
    roundFloat64 (6 / 10) = 5404319552844595 / 9007199254740992 ∧
    roundFloat64 (7 / 10) = 3152519739159347 / 4503599627370496 ∧
    (0 : ℚ) ≤ 0 ∧
    (reconcile
        [toCredit "A" (3602879701896397 / 36028797018963968) (dateOf 2024 1 1),
          toCredit "B" (5404319552844595 / 9007199254740992) (dateOf 2024 1 2)]
        [toDebit "X" (3152519739159347 / 4503599627370496) (dateOf 2024 1 3)] 7 0).1.drop
      (phase1 7
        [toCredit "A" (3602879701896397 / 36028797018963968) (dateOf 2024 1 1),
          toCredit "B" (5404319552844595 / 9007199254740992) (dateOf 2024 1 2)]
        [toDebit "X" (3152519739159347 / 4503599627370496) (dateOf 2024 1 3)]).1.length =
      [[(toDebit "X" (3152519739159347 / 4503599627370496) (dateOf 2024 1 3)).toTransaction,
        (toCredit "A" (3602879701896397 / 36028797018963968) (dateOf 2024 1 1)).toTransaction,
        (toCredit "B" (5404319552844595 / 9007199254740992) (dateOf 2024 1 2)).toTransaction]] ∧
    (toDebit "X" (3152519739159347 / 4503599627370496) (dateOf 2024 1 3)).Value -
        sumValues
          [(toCredit "A" (3602879701896397 / 36028797018963968)
              (dateOf 2024 1 1)).toTransaction,
            (toCredit "B" (5404319552844595 / 9007199254740992)
              (dateOf 2024 1 2)).toTransaction] =
      -1 / 36028797018963968 ∧
    ¬ (-(0 : ℚ) ≤
      (toDebit "X" (3152519739159347 / 4503599627370496) (dateOf 2024 1 3)).Value -
        sumValues
          [(toCredit "A" (3602879701896397 / 36028797018963968)
              (dateOf 2024 1 1)).toTransaction,
            (toCredit "B" (5404319552844595 / 9007199254740992)
              (dateOf 2024 1 2)).toTransaction]) := by
  decide!

/-- C3 (amended): every group that phase 2 of `reconcile` appends to the match groups is a
debit followed by the credits it accumulated, and the remainder the code computes for it, the
debit's amount minus each credit's amount in turn with every subtraction rounded to `float64`,
lies in `[-threshold, threshold]`. When the debit's amount and the credits' amounts are
non-negative integers below `2 ^ 53` no subtraction rounds, and the exact difference of the
debit's amount and the sum of the credits' amounts lies in `[-threshold, threshold]`. -/
theorem aggregate_tolerance_amended (credits : List CreditTransaction)
    (debits : List DebitTransaction) (days : Int) (threshold : ℚ) (g : List Transaction)
    (hg : g ∈ (reconcile credits debits days threshold).1.drop
      (phase1 days credits debits).1.length) :
    ∃ debit cs, g = debit :: cs ∧
      -threshold ≤ floatRemainder debit.Value cs ∧ floatRemainder debit.Value cs ≤ threshold ∧
      ((∃ v : Int, debit.Value = (v : ℚ) ∧ 0 ≤ v ∧ v < 2 ^ 53) →
        (∀ c ∈ cs, ∃ n : Int, c.Value = (n : ℚ) ∧ 0 ≤ n) →
        -threshold ≤ debit.Value - sumValues cs ∧ debit.Value - sumValues cs ≤ threshold) := by
  rw [reconcile_eq] at hg
  simp only [List.drop_left, aggregateGroups, List.mem_map, List.mem_filter,
    decide_eq_true_eq] at hg
  obtain ⟨e, ⟨he, hw⟩, rfl⟩ := hg
  obtain ⟨hr, hacc⟩ := accumulated_remaining days _ _ e he
  rw [hr] at hw
  refine ⟨e.1.toTransaction, convertToTransactions e.2.2, rfl, hw.1, hw.2, ?_⟩
  rintro ⟨v, hv, h0, h53⟩ hint
  have hex := floatRemainder_exact (convertToTransactions e.2.2) e.1.Value v hv h0 h53 hint hacc
  rw [← hex]
  exact ⟨hw.1, hw.2⟩

/-- C3 (witness): in the aggregation scenario the group `[X, A, B]` is emitted by phase 2; its
amounts are integers and its difference is within the tolerance. -/
theorem aggregate_tolerance_amended_witness :
    [(toDebit "X" 150 (dateOf 2024 1 2)).toTransaction,
        (toCredit "A" 100 (dateOf 2024 1 1)).toTransaction,
        (toCredit "B" 50 (dateOf 2024 1 3)).toTransaction] ∈
      (reconcile [toCredit "A" 100 (dateOf 2024 1 1), toCredit "B" 50 (dateOf 2024 1 3)]
        [toDebit "X" 150 (dateOf 2024 1 2)] 7 0).1.drop
        (phase1 7 [toCredit "A" 100 (dateOf 2024 1 1), toCredit "B" 50 (dateOf 2024 1 3)]
          [toDebit "X" 150 (dateOf 2024 1 2)]).1.length ∧
    ∃ debit cs,
      [(toDebit "X" 150 (dateOf 2024 1 2)).toTransaction,
        (toCredit "A" 100 (dateOf 2024 1 1)).toTransaction,
        (toCredit "B" 50 (dateOf 2024 1 3)).toTransaction] = debit :: cs ∧
      -(0 : ℚ) ≤ floatRemainder debit.Value cs ∧ floatRemainder debit.Value cs ≤ 0 ∧
      ((∃ v : Int, debit.Value = (v : ℚ) ∧ 0 ≤ v ∧ v < 2 ^ 53) →
        (∀ c ∈ cs, ∃ n : Int, c.Value = (n : ℚ) ∧ 0 ≤ n) →
        -(0 : ℚ) ≤ debit.Value - sumValues cs ∧ debit.Value - sumValues cs ≤ 0) :=
  ⟨by decide!,
    aggregate_tolerance_amended
      [toCredit "A" 100 (dateOf 2024 1 1), toCredit "B" 50 (dateOf 2024 1 3)]
      [toDebit "X" 150 (dateOf 2024 1 2)] 7 0 _ (by decide!)⟩

/-- C4 (as stated, refuted): `days = 110000` and a credit of 1 January 2400 against a debit of
1 January 2024. The credit is dated 137331 whole days after the debit, more than `days`, but
`Time.Sub` saturates at the largest `Duration`, the day difference comes out as 106751, and
the predicate holds. -/
theorem directional_proximity_counterexample :
    (0 : Int) ≤ 110000 ∧
    dateOf 2400 1 1 - dateOf 2024 1 1 = 137331 * nanosPerDay ∧
    (110000 + 1) * nanosPerDay ≤ dateOf 2400 1 1 - dateOf 2024 1 1 ∧
    dateDifferenceInDays (dateOf 2400 1 1) (dateOf 2024 1 1) = 106751 ∧
    dateDifferenceInDays (dateOf 2400 1 1) (dateOf 2024 1 1) ≤ 110000 := by
  decide!

/-- C4 (amended): for `days ≥ 0` the proximity predicate
`dateDifferenceInDays(credit, debit) <= days` holds whenever the credit is dated on or before
the debit, however far before; it fails whenever the credit is dated at least `days + 1` whole
days after the debit and the two dates are no more than the largest `Duration` (`2 ^ 63 - 1`
nanoseconds, about 292 years) apart; for dates further apart `Time.Sub` saturates, the day
difference is 106751, and the predicate holds exactly when `days ≥ 106751`. -/
theorem directional_proximity_amended (days creditDate debitDate : Int) (hdays : 0 ≤ days) :
    (creditDate ≤ debitDate → dateDifferenceInDays creditDate debitDate ≤ days) ∧
    ((days + 1) * nanosPerDay ≤ creditDate - debitDate →
      creditDate - debitDate ≤ maxDuration →
      ¬ dateDifferenceInDays creditDate debitDate ≤ days) ∧
    (maxDuration < creditDate - debitDate →
      dateDifferenceInDays creditDate debitDate = 106751 ∧
        (dateDifferenceInDays creditDate debitDate ≤ days ↔ 106751 ≤ days)) := by
  refine ⟨fun h => ?_, fun h hmax hle => ?_, fun h => ?_⟩
  · have := days_nonpos _ (timeSub_nonpos creditDate debitDate h)
    unfold dateDifferenceInDays
    omega
  · have hpos : 0 ≤ (days + 1) * nanosPerDay := mul_nonneg (by omega) (by decide)
    have hmin : minDuration ≤ creditDate - debitDate :=
      le_trans (by decide) (le_trans hpos h)
    have hsub := timeSub_of_le creditDate debitDate hmin hmax
    have := le_days (timeSub creditDate debitDate) (days + 1) (by omega)
      (by rw [hsub]; exact h) (by rw [hsub]; exact hmax)
    unfold dateDifferenceInDays at hle
    omega
  · have hval : dateDifferenceInDays creditDate debitDate = 106751 := by
      unfold dateDifferenceInDays
      rw [timeSub_of_gt creditDate debitDate h]
      decide!
    exact ⟨hval, by rw [hval]⟩

/-- C4 (witness): with `days = 7`, a credit 45 days before the debit is eligible and a credit
8 days after it is not. -/
theorem directional_proximity_amended_witness :
    (0 : Int) ≤ 7 ∧
    dateDifferenceInDays (dateOf 2024 1 1) (dateOf 2024 2 15) ≤ 7 ∧
    ¬ dateDifferenceInDays (dateOf 2024 1 9) (dateOf 2024 1 1) ≤ 7 :=
  ⟨by decide,
    (directional_proximity_amended 7 (dateOf 2024 1 1) (dateOf 2024 2 15)
      (by decide)).1 (by decide),
    (directional_proximity_amended 7 (dateOf 2024 1 9) (dateOf 2024 1 1)
      (by decide)).2.1 (by decide) (by decide)⟩

/-- C5: a credit accumulated by a phase-2 debit leaves the pool for good, whether or not the
debit then passes the tolerance test: a debit that fails the test is in `unmatchedDebits`, and
the number of `unmatchedCredits` plus the number of credits accumulated by all phase-2 debits
is the number of credits left after phase 1 (indeed the two lists together are a rearrangement
of the pool phase 1 left). In the scenario credits `[A 100]`, debits `[X 150]` on one date,
threshold 0, the result is no group, no unmatched credit and unmatched debit `X`. -/
theorem no_refund_on_failed_aggregation (credits : List CreditTransaction)
    (debits : List DebitTransaction) (days : Int) (threshold : ℚ) :
    (∀ e ∈ accumulated days (phase1 days credits debits).2.2 (phase1 days credits debits).2.1,
      ¬ withinTolerance threshold e.2.1 →
        e.1 ∈ (reconcile credits debits days threshold).2.2) ∧
    (reconcile credits debits days threshold).2.1.length +
        ((accumulated days (phase1 days credits debits).2.2
          (phase1 days credits debits).2.1).map (fun e => e.2.2.length)).sum =
      (phase1 days credits debits).2.1.length ∧
    ((reconcile credits debits days threshold).2.1 ++
        ((accumulated days (phase1 days credits debits).2.2
          (phase1 days credits debits).2.1).map (fun e => e.2.2)).flatten).Perm
      (phase1 days credits debits).2.1 ∧
    (∀ date : Int, 0 ≤ days →
      reconcile [toCredit "A" 100 date] [toDebit "X" 150 date] days 0 =
        ([], [], [toDebit "X" 150 date])) := by
  have hperm := poolAfter_perm days (phase1 days credits debits).2.2
    (phase1 days credits debits).2.1
  refine ⟨?_, ?_, ?_, ?_⟩
  · intro e he hw
    rw [reconcile_eq]
    simp only [failedDebits, List.mem_map, List.mem_filter, decide_eq_true_eq]
    exact ⟨e, ⟨he, hw⟩, rfl⟩
  · rw [reconcile_eq]
    have := hperm.length_eq
    simp only [accumulatedCredits, List.length_append, List.length_flatten, List.map_map] at this
    exact this
  · rw [reconcile_eq]
    exact hperm
  · intro date hdays
    have hd : dateDifferenceInDays date date ≤ days := by
      rw [dateDifferenceInDays_self]; exact hdays
    have h50 : roundFloat64 50 = 50 := by decide!
    have hs : sortCredits [toCredit "A" 100 date] = [toCredit "A" 100 date] := by
      simp [sortCredits]
    have h1 : phase1 days [toCredit "A" 100 date] [toDebit "X" 150 date] =
        ([], [toCredit "A" 100 date], [toDebit "X" 150 date]) := by
      rw [phase1, hs]
      simp [phase1Loop, scanDebits, exactMatch, toCredit, toDebit]
    rw [reconcile, h1]
    simp [phase2Loop, aggregate, aggregateLoop, canAccumulate, removeSwapLast, withinTolerance,
      hd, toCredit, toDebit]
    norm_num [h50]

/-- C6: phase 1 takes the credits in ascending date order, ties broken by descending amount
(the sorted list is a rearrangement of the input in that order), and treats them one by one,
each against the current debit list: `removeFirstMatch` either reports that no debit matches,
or splits the list at the first matching debit and removes it. Phase 1 as coded (the index loops
`phase1Loop` and `scanDebits`) equals the left fold of that step over the sorted credits: a hit
appends the pair, a miss keeps the credit for phase 2. -/
theorem phase1_selection_rule (credits : List CreditTransaction)
    (debits : List DebitTransaction) (days : Int) :
    phase1 days credits debits = phase1Fold days (sortCredits credits) debits ∧
    (sortCredits credits).Perm credits ∧
    List.Sorted creditOrder (sortCredits credits) ∧
    (∀ (credit : CreditTransaction) (ds : List DebitTransaction),
      (removeFirstMatch days credit ds = none ∧ ∀ d ∈ ds, ¬ exactMatch days credit d) ∨
      (∃ pre d post, ds = pre ++ d :: post ∧
        removeFirstMatch days credit ds = some (d, pre ++ post) ∧
        exactMatch days credit d ∧ ∀ x ∈ pre, ¬ exactMatch days credit x)) := by
  refine ⟨phase1_eq_phase1Fold days credits debits, sortCredits_perm credits,
    sortCredits_sorted credits, ?_⟩
  intro credit ds
  cases hr : removeFirstMatch days credit ds with
  | none => exact Or.inl ⟨rfl, removeFirstMatch_none days credit ds hr⟩
  | some p =>
    obtain ⟨d, r⟩ := p
    obtain ⟨hm, pre, post, h1, h2, h3⟩ := removeFirstMatch_some days credit ds d r hr
    exact Or.inr ⟨pre, d, post, h1, by rw [h2], hm, h3⟩

/-- C7 (as stated, refuted): credits `A 100` (1 Jan), `B 50` (2 Jan), `C 50` (3 Jan), debit
`X 150` (3 Jan), `days = 7`, `threshold = 0`. After `A` is accepted the code moves `C`, the last
credit of the pool, into the slot of `A` and accepts it before `B`: the group is `[X, A, C]` and
`B` is left over. The engine with order-preserving removal groups `[X, A, B]` and leaves `C`. -/
theorem stable_scan_order_counterexample :
    reconcile
        [toCredit "A" 100 (dateOf 2024 1 1), toCredit "B" 50 (dateOf 2024 1 2),
          toCredit "C" 50 (dateOf 2024 1 3)]
        [toDebit "X" 150 (dateOf 2024 1 3)] 7 0 =
      ([[(toDebit "X" 150 (dateOf 2024 1 3)).toTransaction,
          (toCredit "A" 100 (dateOf 2024 1 1)).toTransaction,
          (toCredit "C" 50 (dateOf 2024 1 3)).toTransaction]],
        [toCredit "B" 50 (dateOf 2024 1 2)], []) ∧
    reconcileCompact
        [toCredit "A" 100 (dateOf 2024 1 1), toCredit "B" 50 (dateOf 2024 1 2),
          toCredit "C" 50 (dateOf 2024 1 3)]
        [toDebit "X" 150 (dateOf 2024 1 3)] 7 0 =
      ([[(toDebit "X" 150 (dateOf 2024 1 3)).toTransaction,
          (toCredit "A" 100 (dateOf 2024 1 1)).toTransaction,
          (toCredit "B" 50 (dateOf 2024 1 2)).toTransaction]],
        [toCredit "C" 50 (dateOf 2024 1 3)], []) ∧
    reconcile
        [toCredit "A" 100 (dateOf 2024 1 1), toCredit "B" 50 (dateOf 2024 1 2),
          toCredit "C" 50 (dateOf 2024 1 3)]
        [toDebit "X" 150 (dateOf 2024 1 3)] 7 0 ≠
      reconcileCompact
        [toCredit "A" 100 (dateOf 2024 1 1), toCredit "B" 50 (dateOf 2024 1 2),
          toCredit "C" 50 (dateOf 2024 1 3)]
        [toDebit "X" 150 (dateOf 2024 1 3)] 7 0 := by
  decide!

/-- C7 (amended): removing an accepted phase-2 credit writes the last credit of the pool into
its slot and shortens the pool by one, so the moved credit is the next one considered and the
other credits keep their relative order; the removal keeps the whole order only when the
accepted credit is the last or next to last of the pool. `reconcile` returns the same groups
and leftover lists as the engine with order-preserving removal whenever at most two credits
are left after phase 1. -/
theorem stable_scan_order_amended :
    (∀ (pre t : List CreditTransaction) (c last : CreditTransaction),
      removeSwapLast (pre ++ c :: (t ++ [last])) pre.length = pre ++ last :: t) ∧
    (∀ (pre : List CreditTransaction) (c : CreditTransaction),
      removeSwapLast (pre ++ [c]) pre.length = pre) ∧
    (∀ (credits : List CreditTransaction) (debits : List DebitTransaction) (days : Int)
      (threshold : ℚ), (phase1 days credits debits).2.1.length ≤ 2 →
      reconcile credits debits days threshold = reconcileCompact credits debits days threshold) := by
  refine ⟨?_, ?_, ?_⟩
  · intro pre t c last
    rw [removeSwapLast_split]
    simp [List.getLast?_concat, List.dropLast_concat]
  · intro pre c
    rw [removeSwapLast_split]
    simp
  · intro credits debits days threshold h
    unfold reconcile reconcileCompact
    exact phase2Loop_eq_compact days threshold _ _ _ _ h

/-- C7 (witness): in the aggregation scenario two credits are left after phase 1 and the code
agrees with the engine with order-preserving removal. -/
theorem stable_scan_order_amended_witness :
    (phase1 7 [toCredit "A" 100 (dateOf 2024 1 1), toCredit "B" 50 (dateOf 2024 1 3)]
      [toDebit "X" 150 (dateOf 2024 1 2)]).2.1.length ≤ 2 ∧
    reconcile [toCredit "A" 100 (dateOf 2024 1 1), toCredit "B" 50 (dateOf 2024 1 3)]
        [toDebit "X" 150 (dateOf 2024 1 2)] 7 0 =
      reconcileCompact [toCredit "A" 100 (dateOf 2024 1 1), toCredit "B" 50 (dateOf 2024 1 3)]
        [toDebit "X" 150 (dateOf 2024 1 2)] 7 0 :=
  ⟨by decide!, stable_scan_order_amended.2.2 _ _ 7 0 (by decide!)⟩

/-- C8 (as stated, refuted): credit `A 100` of 2024-01-01, debit `X 100` of 2024-02-15,
`days = 7`, `threshold = 0 < 100`. The credit is dated before the debit, the day difference is
`-45 ≤ 7`, and `reconcile` pairs `A` with `X` in phase 1: the result is not "no group, `[A]` and
`[X]` unmatched". -/
theorem date_gap_scenario_counterexample :
    (0 : ℚ) < 100 ∧
    dateDifferenceInDays (dateOf 2024 1 1) (dateOf 2024 2 15) = -45 ∧
    reconcile [toCredit "A" 100 (dateOf 2024 1 1)] [toDebit "X" 100 (dateOf 2024 2 15)] 7 0 =
      ([[(toCredit "A" 100 (dateOf 2024 1 1)).toTransaction,
          (toDebit "X" 100 (dateOf 2024 2 15)).toTransaction]], [], []) ∧
    reconcile [toCredit "A" 100 (dateOf 2024 1 1)] [toDebit "X" 100 (dateOf 2024 2 15)] 7 0 ≠
      ([], [toCredit "A" 100 (dateOf 2024 1 1)], [toDebit "X" 100 (dateOf 2024 2 15)]) := by
  decide!

/-- C8 (amended): for credits `[A 100 2024-01-01]`, debits `[X 100 2024-02-15]` and `days = 7`
the credit is dated 45 days before the debit, the truncated day difference `-45` is `≤ 7`, and
for every threshold `reconcile` returns the single exact pair of `A` with `X` and two empty
leftover lists. -/
theorem date_gap_scenario_amended (threshold : ℚ) :
    dateDifferenceInDays (dateOf 2024 1 1) (dateOf 2024 2 15) = -45 ∧
    reconcile [toCredit "A" 100 (dateOf 2024 1 1)] [toDebit "X" 100 (dateOf 2024 2 15)] 7
        threshold =
      ([[(toCredit "A" 100 (dateOf 2024 1 1)).toTransaction,
          (toDebit "X" 100 (dateOf 2024 2 15)).toTransaction]], [], []) := by
  have h1 : phase1 7 [toCredit "A" 100 (dateOf 2024 1 1)]
      [toDebit "X" 100 (dateOf 2024 2 15)] =
      ([[(toCredit "A" 100 (dateOf 2024 1 1)).toTransaction,
          (toDebit "X" 100 (dateOf 2024 2 15)).toTransaction]], [], []) := by
    decide!
  refine ⟨by decide!, ?_⟩
  rw [reconcile, h1]
  rfl

/-- C9: for credits `[A 100 2024-01-01, B 50 2024-01-03]`, debits `[X 150 2024-01-02]`,
`days = 7` and `threshold = 0`, `reconcile` returns exactly one group, `[X, A, B]`, whose
difference `150 - (100 + 50)` is `0`, and both leftover lists are empty. -/
theorem aggregation_scenario :
    reconcile [toCredit "A" 100 (dateOf 2024 1 1), toCredit "B" 50 (dateOf 2024 1 3)]
        [toDebit "X" 150 (dateOf 2024 1 2)] 7 0 =
      ([[(toDebit "X" 150 (dateOf 2024 1 2)).toTransaction,
          (toCredit "A" 100 (dateOf 2024 1 1)).toTransaction,
          (toCredit "B" 50 (dateOf 2024 1 3)).toTransaction]], [], []) ∧
    (toDebit "X" 150 (dateOf 2024 1 2)).Value -
        sumValues [(toCredit "A" 100 (dateOf 2024 1 1)).toTransaction,
          (toCredit "B" 50 (dateOf 2024 1 3)).toTransaction] = 0 ∧
    generateReport
        (reconcile [toCredit "A" 100 (dateOf 2024 1 1), toCredit "B" 50 (dateOf 2024 1 3)]
          [toDebit "X" 150 (dateOf 2024 1 2)] 7 0).1 [] [] =
      some ("Matched Transactions:\nCredits: A, B - Debit: X (Difference: 0.00)\n" ++
        "\nUnmatched Credit Transactions:\nNone\n\nUnmatched Debit Transactions:\nNone\n") := by
  decide!

/-- C10 (the code at the failing input): credit `A 100` and debit `X 100` on one date are
paired by phase 1 as the group `[A, X]`, and `generateReport` prints the debit's id `X` after
`Credit:` and the credit's id `A` after `Debit:`. In general the line of a phase-1 pair
`[credit, debit]` carries the debit's id and amount under `Credit:` and the credit's under
`Debit:`. -/
theorem exact_pair_rendering_swapped :
    reconcile [toCredit "A" 100 (dateOf 2024 1 1)] [toDebit "X" 100 (dateOf 2024 1 1)] 7 0 =
      ([[(toCredit "A" 100 (dateOf 2024 1 1)).toTransaction,
          (toDebit "X" 100 (dateOf 2024 1 1)).toTransaction]], [], []) ∧
    generateReport
        (reconcile [toCredit "A" 100 (dateOf 2024 1 1)]
          [toDebit "X" 100 (dateOf 2024 1 1)] 7 0).1
        (reconcile [toCredit "A" 100 (dateOf 2024 1 1)]
          [toDebit "X" 100 (dateOf 2024 1 1)] 7 0).2.1
        (reconcile [toCredit "A" 100 (dateOf 2024 1 1)]
          [toDebit "X" 100 (dateOf 2024 1 1)] 7 0).2.2 =
      some ("Matched Transactions:\nCredit: X (100.00) - Debit: A (100.00)\n" ++
        "\nUnmatched Credit Transactions:\nNone\n\nUnmatched Debit Transactions:\nNone\n") ∧
    (∀ (credit : CreditTransaction) (debit : DebitTransaction),
      renderGroup [credit.toTransaction, debit.toTransaction] =
        some ("Credit: " ++ debit.No ++ " (" ++ formatFixed2 debit.Value ++ ") - Debit: " ++
          credit.No ++ " (" ++ formatFixed2 credit.Value ++ ")\n")) := by
  refine ⟨by decide!, by decide!, fun _ _ => rfl⟩

/-- C13 (the code at the failing input): the loop indexes `record[2]` without looking at the
length of the record, so a record with fewer than three fields stops the program (run-time
panic) instead of being skipped: the records `A,1/2/2024` and `B,1/3/2024,50` give no result,
where the claim promises the posting `B`. The same happens for a short record after any number
of records with three fields or more. When every record has at least three fields the loop does
return exactly the postings of the records that parse, in input order. -/
theorem loader_fails_on_short_record (parseFloat : String → Option ℚ)
    (parseDate : String → Option Int) :
    parseCSVFile parseFloat parseDate [["A", "1/2/2024"], ["B", "1/3/2024", "50"]] = none ∧
    (∀ (value : ℚ) (date : Int), parseFloat "50" = some value → parseDate "1/3/2024" = some date →
      postingsOf parseFloat parseDate [["A", "1/2/2024"], ["B", "1/3/2024", "50"]] =
        [{ No := "B", Value := value, Date := date }]) ∧
    (∀ (pre rest : List (List String)) (record : List String),
      (∀ r ∈ pre, 3 ≤ r.length) → record.length < 3 →
      parseCSVFile parseFloat parseDate (pre ++ record :: rest) = none) ∧
    (∀ records : List (List String), (∀ r ∈ records, 3 ≤ r.length) →
      parseCSVFile parseFloat parseDate records =
        some (postingsOf parseFloat parseDate records)) := by
  refine ⟨?_, ?_, ?_, ?_⟩
  · exact parseRecords_short_record parseFloat parseDate _ _ _ (by decide)
  · intro value date hv hd
    simp [postingsOf, postingOf, hv, hd]
  · intro pre rest record hpre hshort
    unfold parseCSVFile
    rw [parseRecords_append parseFloat parseDate pre _ _ hpre]
    exact parseRecords_short_record parseFloat parseDate _ _ _ hshort
  · intro records h
    unfold parseCSVFile
    rw [parseRecords_of_three_fields parseFloat parseDate records [] h]
    simp

/-- C15 (the code at the failing input): on a sheet of 50 rows, numbered 1 to 50, the loop
`for i := 1; i <= 25; i++ { RemoveRow(sheet, i) }` leaves the rows 2, 4, ..., 50 and not the
rows 26 to 50: after each removal the later rows have moved up by one while `i` moves on by
one, so every other row is kept. On every sheet the loop removes the first, third, fifth, ...
row, 25 rows at most. -/
theorem header_removal_keeps_every_other_row :
    removeFirstRows (List.range' 1 50) =
      some [2, 4, 6, 8, 10, 12, 14, 16, 18, 20, 22, 24, 26, 28, 30, 32, 34, 36, 38, 40, 42, 44,
        46, 48, 50] ∧
    (List.range' 1 50).drop 25 =
      [26, 27, 28, 29, 30, 31, 32, 33, 34, 35, 36, 37, 38, 39, 40, 41, 42, 43, 44, 45, 46, 47,
        48, 49, 50] ∧
    removeFirstRows (List.range' 1 50) ≠ some ((List.range' 1 50).drop 25) ∧
    (∀ (α : Type) (sheet : List α), removeFirstRows sheet = some (dropAlternate 25 sheet)) := by
  refine ⟨by decide, by decide, by decide, fun α sheet => removeFirstRows_eq sheet⟩

/-- C12: for groups none of which is empty, the report is the heading `Matched Transactions:`,
the lines of the groups, the heading `Unmatched Credit Transactions:`, the credit section, the
heading `Unmatched Debit Transactions:` and the debit section, in that order. A leftover
section is the single line `None` exactly when its list is empty; otherwise it is one line
`<id>, <amount, 2 decimals>` per leftover posting, in list order. -/
theorem report_sections (groups : List (List Transaction))
    (unmatchedCredits : List CreditTransaction) (unmatchedDebits : List DebitTransaction)
    (hne : ∀ g ∈ groups, g ≠ []) :
    ∃ lines creditSection debitSection,
      renderGroups groups = some lines ∧
      generateReport groups unmatchedCredits unmatchedDebits =
        some ("Matched Transactions:\n" ++ lines ++
          "\nUnmatched Credit Transactions:\n" ++ creditSection ++
          "\nUnmatched Debit Transactions:\n" ++ debitSection) ∧
      (creditSection = "None\n" ↔ unmatchedCredits = []) ∧
      (unmatchedCredits ≠ [] →
        creditSection = String.join (unmatchedCredits.map
          (fun c => c.No ++ ", " ++ formatFixed2 c.Value ++ "\n"))) ∧
      (debitSection = "None\n" ↔ unmatchedDebits = []) ∧
      (unmatchedDebits ≠ [] →
        debitSection = String.join (unmatchedDebits.map
          (fun d => d.No ++ ", " ++ formatFixed2 d.Value ++ "\n"))) := by
  obtain ⟨lines, hl⟩ := renderGroups_isSome groups hne
  refine ⟨lines,
    (if unmatchedCredits.length = 0 then "None\n"
      else String.join (unmatchedCredits.map (fun c => renderLeftover c.toTransaction))),
    (if unmatchedDebits.length = 0 then "None\n"
      else String.join (unmatchedDebits.map (fun d => renderLeftover d.toTransaction))),
    hl, by simp [generateReport, hl], ?_, ?_, ?_, ?_⟩
  · by_cases h : unmatchedCredits = []
    · simp [h]
    · have hlen : unmatchedCredits.length ≠ 0 := by simpa using h
      simp only [hlen, if_false, h, iff_false]
      have := leftovers_ne_none (unmatchedCredits.map (fun c => c.toTransaction)) (by simpa using h)
      simpa [List.map_map, Function.comp_def] using this
  · intro h
    have hlen : unmatchedCredits.length ≠ 0 := by simpa using h
    simp only [hlen, if_false]
    rfl
  · by_cases h : unmatchedDebits = []
    · simp [h]
    · have hlen : unmatchedDebits.length ≠ 0 := by simpa using h
      simp only [hlen, if_false, h, iff_false]
      have := leftovers_ne_none (unmatchedDebits.map (fun d => d.toTransaction)) (by simpa using h)
      simpa [List.map_map, Function.comp_def] using this
  · intro h
    have hlen : unmatchedDebits.length ≠ 0 := by simpa using h
    simp only [hlen, if_false]
    rfl

/-- C12 (witness): one group, no unmatched credit and one unmatched debit: the report has the
three headings in order, `None` under the credit heading and the line `Y, 75.50` under the debit
heading. -/
theorem report_sections_witness :
    (∀ g ∈ [[(toDebit "X" 150 (dateOf 2024 1 2)).toTransaction,
        (toCredit "A" 100 (dateOf 2024 1 1)).toTransaction,
        (toCredit "B" 50 (dateOf 2024 1 3)).toTransaction]], g ≠ []) ∧
    generateReport
        [[(toDebit "X" 150 (dateOf 2024 1 2)).toTransaction,
          (toCredit "A" 100 (dateOf 2024 1 1)).toTransaction,
          (toCredit "B" 50 (dateOf 2024 1 3)).toTransaction]]
        [] [toDebit "Y" (151 / 2) (dateOf 2024 1 5)] =
      some ("Matched Transactions:\nCredits: A, B - Debit: X (Difference: 0.00)\n" ++
        "\nUnmatched Credit Transactions:\nNone\n" ++
        "\nUnmatched Debit Transactions:\nY, 75.50\n") ∧
    ∃ lines creditSection debitSection,
      renderGroups
          [[(toDebit "X" 150 (dateOf 2024 1 2)).toTransaction,
            (toCredit "A" 100 (dateOf 2024 1 1)).toTransaction,
            (toCredit "B" 50 (dateOf 2024 1 3)).toTransaction]] = some lines ∧
      generateReport
          [[(toDebit "X" 150 (dateOf 2024 1 2)).toTransaction,
            (toCredit "A" 100 (dateOf 2024 1 1)).toTransaction,
            (toCredit "B" 50 (dateOf 2024 1 3)).toTransaction]]
          [] [toDebit "Y" (151 / 2) (dateOf 2024 1 5)] =
        some ("Matched Transactions:\n" ++ lines ++
          "\nUnmatched Credit Transactions:\n" ++ creditSection ++
          "\nUnmatched Debit Transactions:\n" ++ debitSection) ∧
      (creditSection = "None\n" ↔ ([] : List CreditTransaction) = []) ∧
      (([] : List CreditTransaction) ≠ [] →
        creditSection = String.join (([] : List CreditTransaction).map
          (fun c => c.No ++ ", " ++ formatFixed2 c.Value ++ "\n"))) ∧
      (debitSection = "None\n" ↔ [toDebit "Y" (151 / 2) (dateOf 2024 1 5)] = []) ∧
      ([toDebit "Y" (151 / 2) (dateOf 2024 1 5)] ≠ [] →
        debitSection = String.join ([toDebit "Y" (151 / 2) (dateOf 2024 1 5)].map
          (fun d => d.No ++ ", " ++ formatFixed2 d.Value ++ "\n"))) :=
  ⟨by simp, by decide!, report_sections _ _ _ (by simp)⟩

/-- C14: the match groups of `reconcile` are the pairs of phase 1 followed by the groups of
phase 2. The credits in the groups (the first posting of each pair, the postings after the
debit of each phase-2 group) together with `unmatchedCredits` form a sub-multiset of the input
credits, and the debits in the groups (the second posting of each pair, the first of each
phase-2 group) together with `unmatchedDebits` are, as a multiset, exactly the input debits.
So no posting occurs in the outputs more often than in the inputs. -/
theorem nothing_duplicated (credits : List CreditTransaction)
    (debits : List DebitTransaction) (days : Int) (threshold : ℚ) :
    (reconcile credits debits days threshold).1 =
      (phase1 days credits debits).1 ++
        (reconcile credits debits days threshold).1.drop (phase1 days credits debits).1.length ∧
    (firstPostings (phase1 days credits debits).1 ++
        otherPostings ((reconcile credits debits days threshold).1.drop
          (phase1 days credits debits).1.length) ++
        convertToTransactions (reconcile credits debits days threshold).2.1).Subperm
      (convertToTransactions credits) ∧
    (otherPostings (phase1 days credits debits).1 ++
        firstPostings ((reconcile credits debits days threshold).1.drop
          (phase1 days credits debits).1.length) ++
        (reconcile credits debits days threshold).2.2.map (fun d => d.toTransaction)).Subperm
      (debits.map (fun d => d.toTransaction)) ∧
    (otherPostings (phase1 days credits debits).1 ++
        firstPostings ((reconcile credits debits days threshold).1.drop
          (phase1 days credits debits).1.length) ++
        (reconcile credits debits days threshold).2.2.map (fun d => d.toTransaction)).Perm
      (debits.map (fun d => d.toTransaction)) ∧
    (∀ t : Transaction,
      (firstPostings (phase1 days credits debits).1 ++
        otherPostings ((reconcile credits debits days threshold).1.drop
          (phase1 days credits debits).1.length) ++
        convertToTransactions (reconcile credits debits days threshold).2.1).count t ≤
      (convertToTransactions credits).count t) := by
  have hc1 := (phase1_postings days credits debits).1
  have hd1 := (phase1_postings days credits debits).2
  have hd2 := phase2_debits days threshold (phase1 days credits debits).2.2
    (phase1 days credits debits).2.1
  have hc2 := phase2_credits days threshold (phase1 days credits debits).2.2
    (phase1 days credits debits).2.1
  have hpool := (poolAfter_perm days (phase1 days credits debits).2.2
    (phase1 days credits debits).2.1).map (fun c => c.toTransaction)
  have hdebits :
      (otherPostings (phase1 days credits debits).1 ++
        firstPostings (aggregateGroups days threshold (phase1 days credits debits).2.2
          (phase1 days credits debits).2.1) ++
        (failedDebits days threshold (phase1 days credits debits).2.2
          (phase1 days credits debits).2.1).map (fun d => d.toTransaction)).Perm
      (debits.map (fun d => d.toTransaction)) := by
    rw [List.append_assoc]
    exact (List.Perm.append_left _ hd2).trans hd1
  have hcredits :
      (firstPostings (phase1 days credits debits).1 ++
        otherPostings (aggregateGroups days threshold (phase1 days credits debits).2.2
          (phase1 days credits debits).2.1) ++
        convertToTransactions (poolAfter days (phase1 days credits debits).2.2
          (phase1 days credits debits).2.1)).Subperm
      (convertToTransactions credits) := by
    rw [List.append_assoc]
    refine List.Subperm.trans ?_ hc1.subperm
    rw [List.subperm_append_left]
    refine (List.Sublist.append hc2 (List.Sublist.refl _)).subperm.trans ?_
    refine List.Perm.subperm ?_
    refine List.perm_append_comm.trans ?_
    simpa [convertToTransactions] using hpool
  rw [reconcile_eq]
  simp only [List.drop_left]
  exact ⟨trivial, hcredits, hdebits.subperm, hdebits, fun t => hcredits.count_le t⟩

end Reconcile
